import Mathlib

/-!
Verification of the shape-detection pipeline in src/public/shapeDetector.js.

Modelling conventions, used throughout:

* JavaScript numbers are modelled exactly: integer pixel coordinates as ℤ,
  real-valued quantities as ℚ.  All the arithmetic the claims depend on
  (comparisons of shoelace areas, confidences, thresholds) is exact on the
  ranges involved, so double rounding is immaterial and is abstracted away.
* IEEE special values matter for this code (JavaScript division by zero
  produces Infinity or NaN and never throws), so quantities produced by a
  division are modelled in the type JVal = ℚ ⊕ {+∞, -∞, NaN} with the IEEE
  comparison and arithmetic rules the code exercises.  Negative zero is not
  modelled; every divident and divisor in this program is a plain 0 when zero.
* JavaScript loops are modelled by List.foldl or fuel recursion; a first-match
  search loop that exits through a found flag is modelled by the fold that
  carries the flag, exactly mirroring the statement order of the source.
-/

attribute [local semireducible] Rat.add Rat.sub Rat.mul Rat.inv Rat.ofScientific

/-- Planar point with integer pixel coordinates, the [x, y] pairs of the source. -/
abbrev Pt := ℤ × ℤ

/-- JavaScript number values produced by the detector: a finite value,
positive or negative infinity, or NaN. -/
inductive JVal where
  | num : ℚ → JVal
  | inf : JVal
  | ninf : JVal
  | nan : JVal
deriving DecidableEq, Repr

namespace JVal

/-- JavaScript strict greater-than on numbers: any comparison with NaN is
false; infinities compare in the usual extended order. -/
def jgt : JVal → JVal → Bool
  | nan, _ => false
  | _, nan => false
  | num a, num b => a > b
  | inf, inf => false
  | inf, _ => true
  | _, inf => false
  | ninf, _ => false
  | num _, ninf => true

/-- JavaScript subtraction including the IEEE special cases the code can reach. -/
def jsub : JVal → JVal → JVal
  | nan, _ => nan
  | _, nan => nan
  | num a, num b => num (a - b)
  | inf, num _ => inf
  | inf, inf => nan
  | inf, ninf => inf
  | ninf, num _ => ninf
  | ninf, inf => ninf
  | ninf, ninf => nan
  | num _, inf => ninf
  | num _, ninf => inf

/-- JavaScript division: a finite nonzero value divided by zero gives a signed
infinity, 0/0 gives NaN, and no exception is ever raised.  Negative zero is
not modelled (no negative zero arises in this program). -/
def jdiv : JVal → JVal → JVal
  | nan, _ => nan
  | _, nan => nan
  | num a, num b =>
      if b = 0 then (if a = 0 then nan else if 0 < a then inf else ninf)
      else num (a / b)
  | inf, num b => if 0 ≤ b then inf else ninf
  | ninf, num b => if 0 ≤ b then ninf else inf
  | num _, inf => num 0
  | num _, ninf => num 0
  | inf, inf => nan
  | inf, ninf => nan
  | ninf, inf => nan
  | ninf, ninf => nan

/-- JavaScript Math.min on two values: NaN if either argument is NaN. -/
def jmin : JVal → JVal → JVal
  | nan, _ => nan
  | _, nan => nan
  | num a, num b => num (min a b)
  | inf, x => x
  | x, inf => x
  | ninf, _ => ninf
  | _, ninf => ninf

end JVal

open JVal

/-! ## Configuration constants (the CONFIG object of the source) -/

/-- CONFIG.circularity = 0.6. -/
def configCircularity : ℚ := 3 / 5

/-- CONFIG.thresholdValue = 5, the default binarization threshold. -/
def configThreshold : ℕ := 5

/-- CONFIG.contourMinArea = 20. -/
def configContourMinArea : ℚ := 20

/-! ## Shape classification (detectShape, lines 151-240)

detectShape computes circularity, solidity and a corner count for the main
contour and fuses them.  The fusion logic is a pure function of those three
quantities; it is embedded here as such.  Circularity and solidity are JVal
because each is produced by a JavaScript division that can yield Infinity or
NaN on degenerate input. -/

/-- Shape labels of the classification result. -/
inductive Shape where
  | circle
  | triangle
  | unknown
deriving DecidableEq, Repr

/-- Classification result: label and confidence, as returned by detectShape. -/
structure ClassResult where
  shape : Shape
  confidence : JVal
deriving DecidableEq, Repr

/-- Lines 151-160: isCircle holds iff circularity > CONFIG.circularity (0.6). -/
def isCircleOf (circularity : JVal) : Bool :=
  jgt circularity (num configCircularity)

/-- Lines 156-160: circleConfidence =
Math.min(1, (circularity - 0.6) / (1 - 0.6)) when isCircle, else its initial 0. -/
def circleConfidenceOf (circularity : JVal) : JVal :=
  if isCircleOf circularity then
    jmin (num 1) (jdiv (jsub circularity (num configCircularity)) (num (1 - configCircularity)))
  else num 0

/-- Lines 162-165: isTriangle holds iff numCorners === 3 and solidity > 0.85. -/
def isTriangleOf (solidity : JVal) (numCorners : ℕ) : Bool :=
  numCorners = 3 && jgt solidity (num (17 / 20))

/-- Lines 162-165: triangleConfidence = Math.min(1, solidity) when isTriangle,
else its initial 0. -/
def triangleConfidenceOf (solidity : JVal) (numCorners : ℕ) : JVal :=
  if isTriangleOf solidity numCorners then jmin (num 1) solidity else num 0

/-- Lines 193-240 of detectShape: the decision between circle, triangle and
the corner-count fallback, for a main contour that survived the area filter. -/
def classify (circularity solidity : JVal) (numCorners : ℕ) : ClassResult :=
  let isCircle := isCircleOf circularity
  let isTriangle := isTriangleOf solidity numCorners
  let circleConfidence := circleConfidenceOf circularity
  let triangleConfidence := triangleConfidenceOf solidity numCorners
  if isCircle && !isTriangle then
    ⟨.circle, circleConfidence⟩
  else if isTriangle && !isCircle then
    ⟨.triangle, triangleConfidence⟩
  else if isCircle && isTriangle then
    if jgt circleConfidence triangleConfidence then
      ⟨.circle, jsub circleConfidence triangleConfidence⟩
    else
      ⟨.triangle, jsub triangleConfidence circleConfidence⟩
  else
    if numCorners ≤ 4 then ⟨.triangle, num (1 / 2)⟩ else ⟨.circle, num (1 / 2)⟩

/-- Lines 103-110: with no valid contour, detectShape short-circuits to
shape unknown with confidence 0. -/
def noContourResult : ClassResult := ⟨.unknown, num 0⟩

/-- Line 140: solidity = area / convexArea, a JavaScript division. -/
def solidityOf (area convexArea : ℚ) : JVal :=
  jdiv (num area) (num convexArea)

/-- Math.PI, the IEEE double closest to π, as an exact rational. -/
def jsPI : ℚ := 884279719003555 / 281474976710656

/-- Lines 451-453: calculateCircularity(area, perimeter) =
(4 * Math.PI * area) / (perimeter * perimeter), a JavaScript division. -/
def calculateCircularity (area perimeter : ℚ) : JVal :=
  jdiv (num (4 * jsPI * area)) (num (perimeter * perimeter))


/-! ## Branch equations for the classifier decision -/

/-- Decision when only the circle hypothesis holds (lines 217-219). -/
theorem classify_circle_only (circ sol : JVal) (k : ℕ)
    (hC : isCircleOf circ = true) (hT : isTriangleOf sol k = false) :
    classify circ sol k = ⟨Shape.circle, circleConfidenceOf circ⟩ := by
  simp [classify, hC, hT]

/-- Decision when only the triangle hypothesis holds (lines 220-222). -/
theorem classify_triangle_only (circ sol : JVal) (k : ℕ)
    (hC : isCircleOf circ = false) (hT : isTriangleOf sol k = true) :
    classify circ sol k = ⟨Shape.triangle, triangleConfidenceOf sol k⟩ := by
  simp [classify, hC, hT]

/-- Decision when both hypotheses hold (lines 223-230). -/
theorem classify_both (circ sol : JVal) (k : ℕ)
    (hC : isCircleOf circ = true) (hT : isTriangleOf sol k = true) :
    classify circ sol k =
      if jgt (circleConfidenceOf circ) (triangleConfidenceOf sol k) then
        ⟨Shape.circle, jsub (circleConfidenceOf circ) (triangleConfidenceOf sol k)⟩
      else
        ⟨Shape.triangle, jsub (triangleConfidenceOf sol k) (circleConfidenceOf circ)⟩ := by
  simp [classify, hC, hT]

/-- Decision when neither hypothesis holds (lines 231-240). -/
theorem classify_neither (circ sol : JVal) (k : ℕ)
    (hC : isCircleOf circ = false) (hT : isTriangleOf sol k = false) :
    classify circ sol k =
      if k ≤ 4 then ⟨Shape.triangle, num (1 / 2)⟩ else ⟨Shape.circle, num (1 / 2)⟩ := by
  simp [classify, hC, hT]

/-! ## Confidence bound lemmas for the classifier -/

/-- When the circle hypothesis holds, circleConfidence is a finite number in (0, 1];
otherwise it is the number 0. -/
theorem circleConfidenceOf_bounds (circ : JVal) :
    (isCircleOf circ = true →
      ∃ q : ℚ, circleConfidenceOf circ = num q ∧ 0 < q ∧ q ≤ 1) ∧
    (isCircleOf circ = false → circleConfidenceOf circ = num 0) := by
  constructor
  · intro h
    cases circ with
    | nan => simp [isCircleOf, jgt] at h
    | ninf => simp [isCircleOf, jgt] at h
    | inf =>
        refine ⟨1, ?_, by norm_num, le_refl 1⟩
        simp [circleConfidenceOf, h, jsub, jdiv, jmin]
        norm_num [configCircularity]
    | num q =>
        have hq : configCircularity < q := by
          simpa [isCircleOf, jgt, decide_eq_true_eq] using h
        refine ⟨min 1 ((q - configCircularity) / (1 - configCircularity)), ?_, ?_, min_le_left _ _⟩
        · simp [circleConfidenceOf, h, jsub, jdiv, jmin]
          norm_num [configCircularity]
        · have h1 : (0 : ℚ) < (q - configCircularity) / (1 - configCircularity) := by
            apply div_pos
            · linarith
            · norm_num [configCircularity]
          exact lt_min (by norm_num) h1
  · intro h
    simp [circleConfidenceOf, h]

/-- When the triangle hypothesis holds, triangleConfidence is a finite number in
(0.85, 1]; otherwise it is the number 0. -/
theorem triangleConfidenceOf_bounds (sol : JVal) (k : ℕ) :
    (isTriangleOf sol k = true →
      ∃ q : ℚ, triangleConfidenceOf sol k = num q ∧ 17 / 20 < q ∧ q ≤ 1) ∧
    (isTriangleOf sol k = false → triangleConfidenceOf sol k = num 0) := by
  constructor
  · intro h
    have h2 : jgt sol (num (17 / 20)) = true := by
      simp [isTriangleOf] at h
      exact h.2
    cases sol with
    | nan => simp [jgt] at h2
    | ninf => simp [jgt] at h2
    | inf =>
        exact ⟨1, by simp [triangleConfidenceOf, h, jmin], by norm_num, le_refl 1⟩
    | num s =>
        have hs : (17 : ℚ) / 20 < s := by
          simpa [jgt, decide_eq_true_eq] using h2
        refine ⟨min 1 s, by simp [triangleConfidenceOf, h, jmin], ?_, min_le_left _ _⟩
        exact lt_min (by norm_num) hs
  · intro h
    simp [triangleConfidenceOf, h]

/-! ## Claim C5 -/

/-- C5: for every input pixel buffer, the returned confidence is a finite number
in [0, 1], and a result with shape unknown carries confidence exactly 0.
detectShape returns either noContourResult (when no contour survives the area
filter, lines 103-110) or classify applied to the metrics of the main contour
(lines 151-240); the first conjunct covers every possible metric triple and
shows classify never yields the unknown label, the second covers the
short-circuit, so an unknown result always carries confidence 0. -/
theorem spec_C5_confidence_invariant :
    (∀ (circ sol : JVal) (k : ℕ),
      (∃ q : ℚ, (classify circ sol k).confidence = num q ∧ 0 ≤ q ∧ q ≤ 1) ∧
      (classify circ sol k).shape ≠ Shape.unknown) ∧
    noContourResult.shape = Shape.unknown ∧ noContourResult.confidence = num 0 := by
  refine ⟨?_, rfl, rfl⟩
  intro circ sol k
  rcases hC : isCircleOf circ with _ | _ <;> rcases hT : isTriangleOf sol k with _ | _
  · -- neither hypothesis: fallback with confidence 1/2
    rw [classify_neither circ sol k hC hT]
    by_cases hk : k ≤ 4 <;> simp [hk] <;> norm_num
  · -- triangle only
    obtain ⟨q, hq, hlo, hhi⟩ := (triangleConfidenceOf_bounds sol k).1 hT
    rw [classify_triangle_only circ sol k hC hT]
    exact ⟨⟨q, hq, by linarith, hhi⟩, by simp⟩
  · -- circle only
    obtain ⟨q, hq, hlo, hhi⟩ := (circleConfidenceOf_bounds circ).1 hC
    rw [classify_circle_only circ sol k hC hT]
    exact ⟨⟨q, hq, by linarith, hhi⟩, by simp⟩
  · -- both: margin score
    obtain ⟨qc, hqc, hclo, hchi⟩ := (circleConfidenceOf_bounds circ).1 hC
    obtain ⟨qt, hqt, htlo, hthi⟩ := (triangleConfidenceOf_bounds sol k).1 hT
    have hb := classify_both circ sol k hC hT
    rw [hqc, hqt] at hb
    by_cases hgt : qt < qc
    · have hres : classify circ sol k = ⟨Shape.circle, num (qc - qt)⟩ := by
        rw [hb]
        simp [jgt, hgt, jsub]
      rw [hres]
      exact ⟨⟨qc - qt, rfl, by linarith, by linarith⟩, by simp⟩
    · have hres : classify circ sol k = ⟨Shape.triangle, num (qt - qc)⟩ := by
        rw [hb]
        simp [jgt, hgt, jsub]
      push_neg at hgt
      rw [hres]
      exact ⟨⟨qt - qc, rfl, by linarith, by linarith⟩, by simp⟩

/-! ## Claim C1 -/

/-- C1: when both the circle and the triangle hypothesis hold, the returned
shape is the hypothesis with the strictly higher confidence, the reported
confidence is the winner's confidence minus the loser's, and the reported
confidence is never negative.  On an exact tie the code takes the triangle
branch, with margin 0. -/
theorem spec_C1_margin_score (circ sol : JVal) (k : ℕ)
    (hC : isCircleOf circ = true) (hT : isTriangleOf sol k = true) :
    ∃ qc qt : ℚ,
      circleConfidenceOf circ = num qc ∧
      triangleConfidenceOf sol k = num qt ∧
      (qt < qc → classify circ sol k = ⟨Shape.circle, num (qc - qt)⟩) ∧
      (qc ≤ qt → classify circ sol k = ⟨Shape.triangle, num (qt - qc)⟩) ∧
      (∀ q : ℚ, (classify circ sol k).confidence = num q → 0 ≤ q) := by
  obtain ⟨qc, hqc, hclo, hchi⟩ := (circleConfidenceOf_bounds circ).1 hC
  obtain ⟨qt, hqt, htlo, hthi⟩ := (triangleConfidenceOf_bounds sol k).1 hT
  have hb := classify_both circ sol k hC hT
  rw [hqc, hqt] at hb
  refine ⟨qc, qt, hqc, hqt, ?_, ?_, ?_⟩
  · intro hlt
    rw [hb]
    simp [jgt, hlt, jsub]
  · intro hle
    rw [hb]
    simp [jgt, not_lt.mpr hle, jsub]
  · intro q hq
    rw [hb] at hq
    by_cases hgt : qt < qc
    · simp [jgt, hgt, jsub] at hq
      linarith
    · simp [jgt, hgt, jsub] at hq
      push_neg at hgt
      linarith

/-- C1 witness: the ambiguous blob of the scenario in the spec, circularity 0.61,
solidity 0.9, corner count 3.  Both hypotheses trigger; the triangle wins with
margin 0.9 - 0.025 = 0.875. -/
theorem spec_C1_witness :
    ∃ qc qt : ℚ,
      circleConfidenceOf (num (61 / 100)) = num qc ∧
      triangleConfidenceOf (num (9 / 10)) 3 = num qt ∧
      (qt < qc → classify (num (61 / 100)) (num (9 / 10)) 3 = ⟨Shape.circle, num (qc - qt)⟩) ∧
      (qc ≤ qt → classify (num (61 / 100)) (num (9 / 10)) 3 = ⟨Shape.triangle, num (qt - qc)⟩) ∧
      (∀ q : ℚ, (classify (num (61 / 100)) (num (9 / 10)) 3).confidence = num q → 0 ≤ q) :=
  spec_C1_margin_score (num (61 / 100)) (num (9 / 10)) 3 (by decide) (by decide)

/-! ## Claim C6 -/

/-- C6: when neither hypothesis holds, the fallback heuristic deterministically
guesses triangle for at most 4 corners and circle otherwise, in both cases with
confidence exactly 0.5. -/
theorem spec_C6_fallback (circ sol : JVal) (k : ℕ)
    (hC : isCircleOf circ = false) (hT : isTriangleOf sol k = false) :
    classify circ sol k =
      if k ≤ 4 then ⟨Shape.triangle, num (1 / 2)⟩ else ⟨Shape.circle, num (1 / 2)⟩ :=
  classify_neither circ sol k hC hT

/-- C6 witness: circularity 0.5 and solidity 0.5 trigger neither hypothesis;
with 5 corners the fallback guesses circle at confidence 0.5. -/
theorem spec_C6_witness :
    classify (num (1 / 2)) (num (1 / 2)) 5 =
      if 5 ≤ 4 then ⟨Shape.triangle, num (1 / 2)⟩ else ⟨Shape.circle, num (1 / 2)⟩ :=
  spec_C6_fallback (num (1 / 2)) (num (1 / 2)) 5 (by decide) (by decide)

/-! ## Claim C3

The claim asserts that when the convex hull of the main contour has area 0,
the triangle hypothesis is disqualified (isTriangle false).  In the source,
solidity = area / convexArea (line 140) with no guard: JavaScript division of
a positive area by 0 yields Infinity, and Infinity > 0.85 is true, so with
cornerCount 3 the triangle hypothesis is NOT disqualified.  A main contour
always has area > CONFIG.contourMinArea = 20 > 0, so the 0/0 NaN case
cannot arise for a main contour. -/

/-- C3 counterexample: a main contour of area 21 (above the minimum-area filter
of 20) whose hull area is 0 and whose simplified polygon has 3 corners yields
isTriangle = true, contradicting the claim that a zero hull area disqualifies
the triangle hypothesis. -/
theorem spec_C3_counterexample :
    isTriangleOf (solidityOf 21 0) 3 = true ∧ (21 : ℚ) > configContourMinArea := by
  constructor
  · decide
  · decide

/-- C3 amended: if the hull area is 0 and the contour area is positive, the
computed solidity is +Infinity (JavaScript raises no error on division by
zero), Infinity > 0.85 holds, and therefore the triangle hypothesis is decided
by the corner count alone: isTriangle is true exactly when cornerCount = 3. -/
theorem spec_C3_zero_hull_area (area : ℚ) (hpos : 0 < area) (k : ℕ) :
    solidityOf area 0 = JVal.inf ∧
    jgt (solidityOf area 0) (num (17 / 20)) = true ∧
    isTriangleOf (solidityOf area 0) k = decide (k = 3) := by
  have hs : solidityOf area 0 = JVal.inf := by
    simp [solidityOf, jdiv, ne_of_gt hpos, hpos]
  refine ⟨hs, by rw [hs]; rfl, ?_⟩
  rw [hs]
  by_cases hk : k = 3 <;> simp [isTriangleOf, jgt, hk]

/-- C3 witness: the amended statement evaluated at area 21 and corner count 3. -/
theorem spec_C3_witness :
    solidityOf 21 0 = JVal.inf ∧
    jgt (solidityOf 21 0) (num (17 / 20)) = true ∧
    isTriangleOf (solidityOf 21 0) 3 = decide (3 = 3) :=
  spec_C3_zero_hull_area 21 (by decide) 3

/-! ## Claim C4

The claim asserts calculateCircularity yields 0 for perimeter 0.  The source
computes (4 * Math.PI * area) / (perimeter * perimeter) with no guard: for
perimeter 0 this is a division by 0, which in JavaScript yields +Infinity when
the area is positive (a value that passes the circularity > 0.6 circle test)
and NaN when the area is also 0; it never yields 0. -/

/-- C4 counterexample: at area 1 and perimeter 0 calculateCircularity yields
+Infinity, not 0, and that value even passes the circularity > 0.6 circle
test; at area 0 and perimeter 0 it yields NaN, not 0. -/
theorem spec_C4_counterexample :
    calculateCircularity 1 0 = JVal.inf ∧
    jgt (calculateCircularity 1 0) (num configCircularity) = true ∧
    calculateCircularity 0 0 = JVal.nan := by
  refine ⟨?_, ?_, ?_⟩ <;> decide

/-- C4 amended: for perimeter 0, calculateCircularity yields NaN when the area
is 0 and +Infinity when the area is positive, never the number 0.  A real
contour with zero perimeter has all its points equal and hence area 0, so the
value actually realized is NaN; NaN fails the circularity > 0.6 comparison, so
such a contour is still not classified as a circle, but through IEEE NaN
comparison semantics rather than through the claimed value 0. -/
theorem spec_C4_zero_perimeter (area : ℚ) (h : 0 ≤ area) :
    calculateCircularity area 0 = (if area = 0 then JVal.nan else JVal.inf) ∧
    isCircleOf (calculateCircularity 0 0) = false := by
  constructor
  · by_cases ha : area = 0
    · simp [calculateCircularity, jdiv, ha]
    · have hpi : (0 : ℚ) < jsPI := by norm_num [jsPI]
      have hpos : 0 < 4 * jsPI * area := by
        have : 0 < area := lt_of_le_of_ne h (Ne.symm ha)
        positivity
      simp [calculateCircularity, jdiv, ha, ne_of_gt hpos, hpos]
  · decide

/-- C4 witness: the amended statement evaluated at area 1. -/
theorem spec_C4_witness :
    (calculateCircularity 1 0 = (if (1 : ℚ) = 0 then JVal.nan else JVal.inf)) ∧
    isCircleOf (calculateCircularity 0 0) = false :=
  spec_C4_zero_perimeter 1 (by decide)

/-! ## Claim C9: binarization (detectShape, lines 46-64)

For each pixel the source computes
luminance = (0.299*r + 0.587*g + 0.114*b) * (a > 200 ? 1.5 : 1.0),
stores Math.min(255, luminance) into a Uint8Array, and thresholds the STORED
value.  Storing into a Uint8Array truncates the float to an integer (ToUint8:
truncation toward zero; the clamped luminance is nonnegative, so this is the
floor).  The claim compares the unclamped real luminance against the
threshold, omitting the truncation, and is refuted by any pixel whose boosted
clamped luminance lies strictly between the threshold and the next integer. -/

/-- Lines 49-55: boosted luminance of one RGBA pixel, as an exact rational. -/
def luminanceOf (r g b a : ℕ) : ℚ :=
  (299 / 1000 * r + 587 / 1000 * g + 114 / 1000 * b) * (if a > 200 then 3 / 2 else 1)

/-- Line 56: gray[i] = Math.min(255, luminance), stored in a Uint8Array, which
truncates the (nonnegative) value to its integer part. -/
def grayOf (r g b a : ℕ) : ℕ :=
  (⌊min 255 (luminanceOf r g b a)⌋).toNat

/-- Lines 60-64: the binary mask marks a pixel foreground iff the stored gray
value strictly exceeds the threshold (CONFIG.thresholdValue, default 5). -/
def binarizePixel (t : ℕ) (r g b a : ℕ) : Bool :=
  grayOf r g b a > t

/-- Modelled from the claim's words (C9): foreground iff the clamped boosted
luminance itself, with no truncation, strictly exceeds the threshold. -/
def binarizePixelClaim (t : ℕ) (r g b a : ℕ) : Bool :=
  min 255 (luminanceOf r g b a) > (t : ℚ)

/-- C9 counterexample: the pixel (r,g,b,a) = (19,0,0,0) at the default
threshold 5 has clamped luminance 5.681, which strictly exceeds 5, so the
claim marks it foreground; the code stores the truncated gray value 5 and
marks it background. -/
theorem spec_C9_counterexample :
    binarizePixel configThreshold 19 0 0 0 = false ∧
    binarizePixelClaim configThreshold 19 0 0 0 = true := by
  constructor
  · decide
  · decide

/-- Luminance is always nonnegative. -/
theorem luminanceOf_nonneg (r g b a : ℕ) : 0 ≤ luminanceOf r g b a := by
  unfold luminanceOf
  have hr : (0 : ℚ) ≤ r := Nat.cast_nonneg r
  have hg : (0 : ℚ) ≤ g := Nat.cast_nonneg g
  have hb : (0 : ℚ) ≤ b := Nat.cast_nonneg b
  by_cases ha : a > 200 <;> simp [ha] <;> positivity

/-- C9 amended: a pixel is marked foreground iff the truncated integer part of
the clamped boosted luminance strictly exceeds the threshold, equivalently iff
the clamped boosted luminance reaches threshold + 1 (so at the default
threshold 5, iff the clamped luminance is at least 6). -/
theorem spec_C9_binarization (t : ℕ) (r g b a : ℕ) :
    binarizePixel t r g b a =
      decide ((t : ℚ) + 1 ≤ min 255 (luminanceOf r g b a)) := by
  have h0 : (0 : ℚ) ≤ min 255 (luminanceOf r g b a) :=
    le_min (by norm_num) (luminanceOf_nonneg r g b a)
  have hfl : 0 ≤ ⌊min 255 (luminanceOf r g b a)⌋ := Int.floor_nonneg.mpr h0
  unfold binarizePixel grayOf
  rw [decide_eq_decide]
  rw [gt_iff_lt, ← Nat.cast_lt (α := ℤ), Int.toNat_of_nonneg hfl,
    Int.lt_iff_add_one_le, Int.le_floor]
  push_cast
  rfl

/-! ## Convex hull (calculateConvexHull, lines 480-515)

The source FIRST mutates its input: it swaps the anchor (lowest y, ties broken
by lowest x) with element 0 of the contour array in place, then sorts a copy of
the remaining points by polar angle (JavaScript sort is stable; the comparator
returns angleA - angleB, so the order is ascending atan2 angle, modelled below
by an exact comparator equivalent to comparing atan2 values) and runs the
Graham scan.  The embedding returns the pair (contour after the call, hull) to
make the in-place mutation of the input observable. -/

/-- Lines 524-526: isCounterClockwise, a strict cross-product test. -/
def isCounterClockwise (p1 p2 p3 : Pt) : Bool :=
  (p2.1 - p1.1) * (p3.2 - p1.2) - (p2.2 - p1.2) * (p3.1 - p1.1) > 0

/-- Lines 482-488: index of the point with the lowest y, ties broken by lowest x. -/
def anchorIndex (c : List Pt) : ℕ :=
  (List.range' 1 (c.length - 1)).foldl
    (fun start i =>
      if (c.getD i (0, 0)).2 < (c.getD start (0, 0)).2 ∨
         ((c.getD i (0, 0)).2 = (c.getD start (0, 0)).2 ∧
          (c.getD i (0, 0)).1 < (c.getD start (0, 0)).1)
      then i else start) 0

/-- Line 491: the destructuring swap of elements i and j of the array; both
right-hand values are read before either assignment. -/
def listSwap (c : List Pt) (i j : ℕ) : List Pt :=
  (c.set i (c.getD j (0, 0))).set j (c.getD i (0, 0))

/-- Angle class of a vector under atan2(dy, dx): -1 for angles in (-pi, 0),
0 for angle 0 (dy = 0, dx >= 0, including the zero vector), 1 for angles in
(0, pi), 2 for angle pi. -/
def aClass (v : Pt) : ℤ :=
  if 0 < v.2 then 1 else if v.2 < 0 then -1 else if 0 ≤ v.1 then 0 else 2

/-- Cross product of two vectors. -/
def cross2 (v w : Pt) : ℤ := v.1 * w.2 - v.2 * w.1

/-- Lines 495-499: the sort comparator, angleA - angleB <= 0, decided exactly:
atan2 angles compare by class first; within the open half-planes the order of
two angles is the sign of their cross product.  This reproduces the comparator
on doubles except when two distinct angles are closer than double rounding,
which cannot affect the mutation claims proved below. -/
def angleLe (s a b : Pt) : Bool :=
  let v : Pt := (a.1 - s.1, a.2 - s.2)
  let w : Pt := (b.1 - s.1, b.2 - s.2)
  if aClass v = aClass w then
    if aClass v = 1 ∨ aClass v = -1 then 0 ≤ cross2 v w else true
  else aClass v < aClass w

/-- Lines 505-510: the pop loop of the Graham scan; the hull is kept reversed
(top of the JavaScript array = head of this list).  Pops while the last two
hull points and the new point do not make a strict counter-clockwise turn. -/
def scanPop (hullRev : List Pt) (p : Pt) : List Pt :=
  match hullRev with
  | b :: a :: rest =>
      if !(isCounterClockwise a b p) then scanPop (a :: rest) p else hullRev
  | _ => hullRev

/-- Lines 480-515: calculateConvexHull.  Returns (contour after the call,
hull).  The contour after the call differs from the input: the source swaps
the anchor point into index 0 of its argument in place (line 491).  The two
degenerate branches (empty input; a single point, where the JavaScript code
would read an undefined element) are unreachable from the pipeline, which
calls this only on contours of 3 or more points. -/
def calculateConvexHull (contour : List Pt) : List Pt × List Pt :=
  let c := listSwap contour 0 (anchorIndex contour)
  match c with
  | [] => ([], [])
  | startPoint :: rest =>
      let sorted := rest.insertionSort (fun a b => angleLe startPoint a b = true)
      match sorted with
      | [] => (c, [startPoint])
      | s0 :: stail =>
          let hullRev := stail.foldl (fun hr p => p :: scanPop hr p) [s0, startPoint]
          (c, hullRev.reverse)

/-- Setting an index to the element already there leaves the list unchanged. -/
theorem list_set_self {α : Type} (l : List α) (i : ℕ) (h : i < l.length) :
    l.set i l[i] = l := by
  apply List.ext_getElem
  · simp
  · intro n h1 h2
    rw [List.getElem_set]
    split
    · next heq => subst heq; rfl
    · rfl

/-- A fold whose step either keeps its accumulator or replaces it by the
current element ends in the initial value or in an element of the list. -/
theorem foldl_choice_mem (f : ℕ → ℕ → ℕ) (hf : ∀ s i, f s i = s ∨ f s i = i)
    (is : List ℕ) (init : ℕ) :
    is.foldl f init = init ∨ is.foldl f init ∈ is := by
  induction is generalizing init with
  | nil => left; rfl
  | cons j t ih =>
      simp only [List.foldl_cons]
      rcases ih (f init j) with h | h
      · rcases hf init j with h2 | h2
        · left
          rw [h, h2]
        · right
          rw [h, h2]
          exact List.mem_cons_self j t
      · right
        exact List.mem_cons_of_mem _ h

/-- The anchor index is a valid index of a nonempty contour. -/
theorem anchorIndex_lt (c : List Pt) (h : c ≠ []) : anchorIndex c < c.length := by
  have hlen : 0 < c.length := List.length_pos.mpr h
  unfold anchorIndex
  rcases foldl_choice_mem
      (fun s i =>
        if (c.getD i (0, 0)).2 < (c.getD s (0, 0)).2 ∨
           ((c.getD i (0, 0)).2 = (c.getD s (0, 0)).2 ∧
            (c.getD i (0, 0)).1 < (c.getD s (0, 0)).1)
        then i else s)
      (fun s i => by
        by_cases hc : (c.getD i (0, 0)).2 < (c.getD s (0, 0)).2 ∨
           ((c.getD i (0, 0)).2 = (c.getD s (0, 0)).2 ∧
            (c.getD i (0, 0)).1 < (c.getD s (0, 0)).1)
        · right
          exact if_pos hc
        · left
          exact if_neg hc)
      (List.range' 1 (c.length - 1)) 0 with hh | hh
  · rw [hh]
    exact hlen
  · have := List.mem_range'_1.mp hh
    omega


/-- Swapping position 0 with a valid position j of a list is a permutation of
the list. -/
theorem listSwap_zero_perm (c : List Pt) (j : ℕ) (hj : j < c.length) :
    (listSwap c 0 j).Perm c := by
  unfold listSwap
  rw [List.getD_eq_getElem c (0, 0) hj,
    List.getD_eq_getElem c (0, 0) (lt_of_le_of_lt (Nat.zero_le j) hj)]
  rcases c with _ | ⟨x, r⟩
  · simp at hj
  · rcases j with _ | j2
    · simp
    · have hr : j2 < r.length := by
        simp at hj
        omega
      have h1 : ((x :: r).set 0 ((x :: r)[j2 + 1])).set (j2 + 1) ((x :: r)[0]) =
          r[j2] :: r.set j2 x := by
        simp
      rw [h1, List.set_eq_take_cons_drop x hr]
      have h2 : x :: r = x :: (r.take j2 ++ r[j2] :: r.drop (j2 + 1)) := by
        conv_lhs => rw [← list_set_self r j2 hr]
        rw [List.set_eq_take_cons_drop _ hr]
      rw [h2]
      exact (List.Perm.cons _ List.perm_middle).trans
        ((List.Perm.swap _ _ _).trans (List.Perm.cons _ List.perm_middle.symm))

/-- The contour returned in the first component is always the input with the
anchor swapped to index 0. -/
theorem calculateConvexHull_fst (contour : List Pt) :
    (calculateConvexHull contour).1 = listSwap contour 0 (anchorIndex contour) := by
  unfold calculateConvexHull
  rcases h : listSwap contour 0 (anchorIndex contour) with _ | ⟨p, rest⟩
  · simp
  · rcases h2 : rest.insertionSort (fun a b => angleLe p a b = true) with _ | ⟨s0, st⟩ <;>
      simp [h2]

/-- C2 counterexample: on the contour [(0,1), (5,1), (3,0)] the anchor (3,0)
sits at index 2; calculateConvexHull swaps it with index 0 in place, so the
contour after the call is [(3,0), (5,1), (0,1)], not the input sequence.
This refutes the claim that the hull stage leaves its input unchanged. -/
theorem spec_C2_counterexample :
    (calculateConvexHull [((0 : ℤ), (1 : ℤ)), (5, 1), (3, 0)]).1 ≠
      [((0 : ℤ), (1 : ℤ)), (5, 1), (3, 0)] := by
  decide

/-- C2 amended: calculateConvexHull does mutate its input - it swaps the
anchor point (lowest y, ties broken by lowest x) into index 0 of the contour
array in place - but the mutation is exactly that swap: the contour after the
call is a permutation of the contour before it, with the same points and the
same multiplicities, only the order of two elements changed. -/
theorem spec_C2_hull_permutes_input (contour : List Pt) :
    ((calculateConvexHull contour).1).Perm contour := by
  rw [calculateConvexHull_fst]
  rcases h : contour with _ | ⟨p, rest⟩
  · rfl
  · rw [← h]
    have hne : contour ≠ [] := by
      rw [h]
      exact List.cons_ne_nil p rest
    exact listSwap_zero_perm contour (anchorIndex contour) (anchorIndex_lt contour hne)

/-! ## Contour tracing (findContours lines 277-322, traceContour lines 334-406)

State of a trace: the visited set (the visited bitmap, shared across traces of
one findContours call), the contour built so far (appended at the end), and
the backtracking stack.  The JavaScript array stack pushes and pops at the
end; here the head of the stack list is the top.  The while loop is embedded
with fuel: every iteration pops one entry, and an entry is pushed only
together with marking a previously unvisited pixel visited, so w*h+1
iterations always suffice and the fuel is never exhausted on the real loop. -/

structure TraceState where
  visited : List Pt
  contour : List Pt
  stack : List Pt
deriving DecidableEq, Repr

/-- Lines 337-341: the 8 neighbor offsets in the fixed priority order
NW, N, NE, W, E, SW, S, SE. -/
def directions : List Pt :=
  [(-1, -1), (0, -1), (1, -1), (-1, 0), (1, 0), (-1, 1), (0, 1), (1, 1)]

/-- Bounds test of lines 357-359 and 386-388 (negated: true means inside). -/
def inBounds (w h : ℕ) (p : Pt) : Bool :=
  0 ≤ p.1 && p.1 < (w : ℤ) && 0 ≤ p.2 && p.2 < (h : ℤ)

/-- Lines 361-364 and 390-393: a pixel qualifies when it is in bounds, its
binary value is 255, and it has not been visited. -/
def candidate (binary : Pt → ℕ) (visited : List Pt) (w h : ℕ) (n : Pt) : Bool :=
  inBounds w h n && decide (binary n = 255) && !(decide (n ∈ visited))

/-- Lines 365-367 and 394-396: mark the pixel visited, append it to the
contour, push it on the stack. -/
def pushPixel (st : TraceState) (n : Pt) : TraceState :=
  ⟨n :: st.visited, st.contour ++ [n], n :: st.stack⟩

/-- Body of the direction loop of lines 352-371: once a direction is found the
flag short-circuits every later step (the break of line 369). -/
def scanBody (binary : Pt → ℕ) (w h : ℕ) (p : Pt)
    (acc : TraceState × Bool) (d : Pt) : TraceState × Bool :=
  if acc.2 then acc
  else
    let n : Pt := (p.1 + d.1, p.2 + d.2)
    if candidate binary acc.1.visited w h n then (pushPixel acc.1 n, true) else acc

/-- Lines 350-371: try the 8 directions in priority order, taking the first
unvisited foreground neighbor. -/
def neighborScan (binary : Pt → ℕ) (w h : ℕ) (p : Pt) (st : TraceState) :
    TraceState × Bool :=
  directions.foldl (scanBody binary w h p) (st, false)

/-- Offsets (dx, dy) of the square of radius r in the iteration order of
lines 378-379: dy from -r to r in the outer loop, dx from -r to r inside. -/
def squareOffsets (r : ℕ) : List Pt :=
  (List.range (2 * r + 1)).flatMap fun dyi =>
    (List.range (2 * r + 1)).map fun dxi => ((dxi : ℤ) - r, (dyi : ℤ) - r)

/-- Body of the expanding search of lines 377-401; the (0,0) offset is skipped
(the continue of line 380) and the found flag, which appears in the conditions
of all three loops, short-circuits everything after the first match. -/
def ringBody (binary : Pt → ℕ) (w h : ℕ) (p : Pt)
    (acc : TraceState × Bool) (d : Pt) : TraceState × Bool :=
  if acc.2 then acc
  else if d = ((0 : ℤ), (0 : ℤ)) then acc
  else
    let n : Pt := (p.1 + d.1, p.2 + d.2)
    if candidate binary acc.1.visited w h n then (pushPixel acc.1 n, true) else acc

/-- Lines 376-401: search the radius-2 square and then the radius-3 square
around the dead-end pixel for any unvisited foreground pixel. -/
def ringScan (binary : Pt → ℕ) (w h : ℕ) (p : Pt) (st : TraceState) : TraceState :=
  ((squareOffsets 2 ++ squareOffsets 3).foldl (ringBody binary w h p) (st, false)).1

/-- Lines 347-403: one iteration of the while loop: pop the stack, try the 8
neighbors, and on a dead end with an empty stack and a contour of more than
one point run the expanding ring search. -/
def traceStep (binary : Pt → ℕ) (w h : ℕ) (st : TraceState) : TraceState :=
  match st.stack with
  | [] => st
  | p :: rest =>
      let st0 : TraceState := ⟨st.visited, st.contour, rest⟩
      let scanned := neighborScan binary w h p st0
      if !scanned.2 && rest.isEmpty && decide (1 < scanned.1.contour.length) then
        ringScan binary w h p scanned.1
      else scanned.1

/-- The while loop of line 347, with fuel. -/
def traceLoop (binary : Pt → ℕ) (w h : ℕ) : ℕ → TraceState → TraceState
  | 0, st => st
  | fuel + 1, st =>
      if st.stack.isEmpty then st
      else traceLoop binary w h fuel (traceStep binary w h st)

/-- Lines 334-406: traceContour.  visited0 is the visited bitmap shared across
the traces of one findContours call; lines 344-345 mark and append the start
pixel before the loop. -/
def traceContour (binary : Pt → ℕ) (w h : ℕ) (startX startY : ℤ)
    (visited0 : List Pt) : TraceState :=
  traceLoop binary w h (w * h + 1)
    ⟨(startX, startY) :: visited0, [(startX, startY)], [(startX, startY)]⟩

/-- Offsets of the 3x3 box blur of lines 292-296, dy outer, dx inner. -/
def offsets3x3 : List Pt :=
  [(-1, -1), (0, -1), (1, -1), (-1, 0), (0, 0), (1, 0), (-1, 1), (0, 1), (1, 1)]

/-- Lines 279-283: any nonzero pixel becomes full intensity. -/
def enhance (binary : Pt → ℕ) (p : Pt) : ℕ :=
  if 0 < binary p then 255 else 0

/-- Lines 286-301: the box blur; interior pixels survive when the 3x3 sum of
the enhanced image exceeds 255, all border pixels of the output stay 0 (the
blurred array is only written at interior indices). -/
def blurAt (binary : Pt → ℕ) (w h : ℕ) (p : Pt) : ℕ :=
  if 1 ≤ p.1 ∧ p.1 < (w : ℤ) - 1 ∧ 1 ≤ p.2 ∧ p.2 < (h : ℤ) - 1 then
    if 255 < offsets3x3.foldl (fun s d => s + enhance binary (p.1 + d.1, p.2 + d.2)) 0
    then 255 else 0
  else 0

/-- Scan order of lines 308-309: row major over the interior. -/
def scanCoords (w h : ℕ) : List Pt :=
  (List.range (h - 2)).flatMap fun yi =>
    (List.range (w - 2)).map fun xi => (Int.ofNat (xi + 1), Int.ofNat (yi + 1))

/-- Lines 277-322: findContours.  The accumulator carries the shared visited
set and the list of retained contours; a finished trace is retained only when
it has more than 2 points (line 314). -/
def findContours (binary : Pt → ℕ) (w h : ℕ) : List (List Pt) :=
  ((scanCoords w h).foldl
    (fun (acc : List Pt × List (List Pt)) p =>
      if decide (blurAt binary w h p = 255) && !(decide (p ∈ acc.1)) then
        let st := traceContour (fun q => blurAt binary w h q) w h p.1 p.2 acc.1
        if 2 < st.contour.length then (st.visited, acc.2 ++ [st.contour])
        else (st.visited, acc.2)
      else acc)
    ([], [])).2

/-! ## First-match characterization of the two search loops -/

/-- The first qualifying pixel among the 8 neighbors in priority order. -/
def findNeighbor (binary : Pt → ℕ) (visited : List Pt) (w h : ℕ) (p : Pt) : Option Pt :=
  (directions.map fun d => ((p.1 + d.1, p.2 + d.2) : Pt)).find?
    (candidate binary visited w h)

/-- The first qualifying pixel of the radius-2 square and then the radius-3
square, in source iteration order, the center excluded. -/
def findRing (binary : Pt → ℕ) (visited : List Pt) (w h : ℕ) (p : Pt) : Option Pt :=
  (((squareOffsets 2 ++ squareOffsets 3).filter fun d => d ≠ ((0 : ℤ), (0 : ℤ))).map
    fun d => ((p.1 + d.1, p.2 + d.2) : Pt)).find? (candidate binary visited w h)

/-- After the flag is set, the direction loop changes nothing. -/
theorem foldl_scanBody_frozen (b : Pt → ℕ) (w h : ℕ) (p : Pt) (l : List Pt)
    (x : TraceState) : l.foldl (scanBody b w h p) (x, true) = (x, true) := by
  induction l with
  | nil => rfl
  | cons d t ih =>
      rw [List.foldl_cons, show scanBody b w h p (x, true) d = (x, true) from rfl]
      exact ih

/-- The direction loop computes the first match in priority order. -/
theorem foldl_scanBody_eq (b : Pt → ℕ) (w h : ℕ) (p : Pt) (l : List Pt)
    (st : TraceState) :
    l.foldl (scanBody b w h p) (st, false) =
      match (l.map fun d => ((p.1 + d.1, p.2 + d.2) : Pt)).find?
          (candidate b st.visited w h) with
      | some n => (pushPixel st n, true)
      | none => (st, false) := by
  induction l with
  | nil => rfl
  | cons d t ih =>
      rw [List.foldl_cons, List.map_cons]
      by_cases hc : candidate b st.visited w h (p.1 + d.1, p.2 + d.2) = true
      · have hbody : scanBody b w h p (st, false) d =
            (pushPixel st (p.1 + d.1, p.2 + d.2), true) := by
          simp [scanBody, hc]
        rw [hbody, foldl_scanBody_frozen, List.find?_cons_of_pos _ hc]
      · have hbody : scanBody b w h p (st, false) d = (st, false) := by
          simp [scanBody, hc]
        rw [hbody, ih, List.find?_cons_of_neg]
        simpa using hc

/-- The neighbor scan takes the first qualifying neighbor, or reports none. -/
theorem neighborScan_eq (b : Pt → ℕ) (w h : ℕ) (p : Pt) (st : TraceState) :
    neighborScan b w h p st =
      match findNeighbor b st.visited w h p with
      | some n => (pushPixel st n, true)
      | none => (st, false) :=
  foldl_scanBody_eq b w h p directions st

/-- After the flag is set, the ring loops change nothing. -/
theorem foldl_ringBody_frozen (b : Pt → ℕ) (w h : ℕ) (p : Pt) (l : List Pt)
    (x : TraceState) : l.foldl (ringBody b w h p) (x, true) = (x, true) := by
  induction l with
  | nil => rfl
  | cons d t ih =>
      rw [List.foldl_cons, show ringBody b w h p (x, true) d = (x, true) from rfl]
      exact ih

/-- The ring loops compute the first match in iteration order, skipping the
center. -/
theorem foldl_ringBody_eq (b : Pt → ℕ) (w h : ℕ) (p : Pt) (l : List Pt)
    (st : TraceState) :
    l.foldl (ringBody b w h p) (st, false) =
      match ((l.filter fun d => d ≠ ((0 : ℤ), (0 : ℤ))).map
          fun d => ((p.1 + d.1, p.2 + d.2) : Pt)).find? (candidate b st.visited w h) with
      | some n => (pushPixel st n, true)
      | none => (st, false) := by
  induction l with
  | nil => rfl
  | cons d t ih =>
      by_cases hd : d = ((0 : ℤ), (0 : ℤ))
      · have hbody : ringBody b w h p (st, false) d = (st, false) := by
          simp [ringBody, hd]
        rw [List.foldl_cons, hbody, ih, List.filter_cons_of_neg]
        simp [hd]
      · rw [List.foldl_cons,
          List.filter_cons_of_pos (p := fun d => decide (d ≠ ((0 : ℤ), (0 : ℤ))))
            (decide_eq_true hd),
          List.map_cons]
        have hd0 : d ≠ ((0 : ℤ × ℤ)) := hd
        by_cases hc : candidate b st.visited w h (p.1 + d.1, p.2 + d.2) = true
        · have hbody : ringBody b w h p (st, false) d =
              (pushPixel st (p.1 + d.1, p.2 + d.2), true) := by
            simp [ringBody, hd, hd0, hc]
          rw [hbody, foldl_ringBody_frozen, List.find?_cons_of_pos _ hc]
        · have hbody : ringBody b w h p (st, false) d = (st, false) := by
            simp [ringBody, hd, hd0, hc]
          rw [hbody, ih, List.find?_cons_of_neg]
          simpa using hc

/-- The expanding search takes the first qualifying pixel of the two squares,
or leaves the state unchanged. -/
theorem ringScan_eq (b : Pt → ℕ) (w h : ℕ) (p : Pt) (st : TraceState) :
    ringScan b w h p st =
      match findRing b st.visited w h p with
      | some n => pushPixel st n
      | none => st := by
  have fst_of_match : ∀ (o : Option Pt) (f : Pt → TraceState) (s : TraceState),
      (match o with | some n => (f n, true) | none => (s, false)).1 =
        match o with | some n => f n | none => s := by
    intro o f s
    cases o <;> rfl
  unfold ringScan findRing
  rw [foldl_ringBody_eq]
  exact fst_of_match _ _ _

/-- One unfolding of the loop body for a nonempty stack. -/
theorem traceStep_cons (b : Pt → ℕ) (w h : ℕ) (p : Pt) (rest : List Pt)
    (visited contour : List Pt) :
    traceStep b w h ⟨visited, contour, p :: rest⟩ =
      (let scanned := neighborScan b w h p ⟨visited, contour, rest⟩
       if !scanned.2 && rest.isEmpty && decide (1 < scanned.1.contour.length) then
         ringScan b w h p scanned.1
       else scanned.1) := rfl

/-! ## Claim C7

The claim: whenever the current pixel has no qualifying 8-neighbor and the
stack is empty, the trace searches radius 2 and then radius 3 and bridges to
the first unvisited foreground pixel found, else terminates.  The source
guards this search by an extra condition the claim omits: contour.length > 1
(line 374).  At a dead end reached with a single-point contour the search is
skipped and the trace ends even when a bridgeable pixel exists. -/

/-- Mask with exactly two foreground pixels, (2,2) and (4,2), two columns
apart: not 8-neighbors, but within the radius-2 search of each other. -/
def gapMask : Pt → ℕ := fun p =>
  if p = ((2 : ℤ), (2 : ℤ)) ∨ p = ((4 : ℤ), (2 : ℤ)) then 255 else 0

/-- C7 counterexample: tracing gapMask from (2,2) dead-ends immediately with
the one-point contour [(2,2)] and an empty stack while the radius-2 search
around (2,2) would find the unvisited foreground pixel (4,2); the code skips
the search (contour.length > 1 fails) and terminates with [(2,2)], so the
trace does not bridge as the claim requires. -/
theorem spec_C7_counterexample :
    (traceContour gapMask 7 7 2 2 []).contour = [((2 : ℤ), (2 : ℤ))] ∧
    findRing gapMask [((2 : ℤ), (2 : ℤ))] 7 7 (2, 2) = some (4, 2) := by
  constructor
  · decide
  · decide

/-- C7 amended: at a dead end (no qualifying 8-neighbor, stack empty after the
pop) the trace runs the radius-2 then radius-3 search and bridges to the first
unvisited foreground pixel found (marking it visited, appending it, pushing
it), or terminates if there is none - but only when the contour already has
more than one point; with a one-point contour the search is skipped and the
trace terminates at once. -/
theorem spec_C7_gap_bridging (b : Pt → ℕ) (w h : ℕ) (p : Pt)
    (visited contour : List Pt)
    (hnb : findNeighbor b visited w h p = none) :
    (1 < contour.length →
      traceStep b w h ⟨visited, contour, [p]⟩ =
        match findRing b visited w h p with
        | some q => ⟨q :: visited, contour ++ [q], [q]⟩
        | none => ⟨visited, contour, []⟩) ∧
    (contour.length ≤ 1 →
      traceStep b w h ⟨visited, contour, [p]⟩ = ⟨visited, contour, []⟩) := by
  have hscan := neighborScan_eq b w h p ⟨visited, contour, []⟩
  dsimp only at hscan
  rw [hnb] at hscan
  have hring := ringScan_eq b w h p ⟨visited, contour, []⟩
  dsimp only at hring
  constructor
  · intro hlen
    rw [traceStep_cons]
    simp only [hscan]
    rw [if_pos (by simp [hlen])]
    rw [hring]
    rcases hfr : findRing b visited w h p with _ | q
    · rfl
    · rfl
  · intro hlen
    rw [traceStep_cons]
    simp only [hscan]
    rw [if_neg (by simp; omega)]

/-- C7 witness: the amended statement evaluated on gapMask at the dead end
(2,2) with a two-point contour: the bridge to (4,2) does happen. -/
theorem spec_C7_witness :
    (1 < [((2 : ℤ), (2 : ℤ)), ((3 : ℤ), (3 : ℤ))].length →
      traceStep gapMask 7 7
          ⟨[((2 : ℤ), (2 : ℤ))], [((2 : ℤ), (2 : ℤ)), ((3 : ℤ), (3 : ℤ))], [(2, 2)]⟩ =
        match findRing gapMask [((2 : ℤ), (2 : ℤ))] 7 7 (2, 2) with
        | some q =>
            ⟨q :: [((2 : ℤ), (2 : ℤ))],
              [((2 : ℤ), (2 : ℤ)), ((3 : ℤ), (3 : ℤ))] ++ [q], [q]⟩
        | none => ⟨[((2 : ℤ), (2 : ℤ))], [((2 : ℤ), (2 : ℤ)), ((3 : ℤ), (3 : ℤ))], []⟩) ∧
    ([((2 : ℤ), (2 : ℤ)), ((3 : ℤ), (3 : ℤ))].length ≤ 1 →
      traceStep gapMask 7 7
          ⟨[((2 : ℤ), (2 : ℤ))], [((2 : ℤ), (2 : ℤ)), ((3 : ℤ), (3 : ℤ))], [(2, 2)]⟩ =
        ⟨[((2 : ℤ), (2 : ℤ))], [((2 : ℤ), (2 : ℤ)), ((3 : ℤ), (3 : ℤ))], []⟩) :=
  spec_C7_gap_bridging gapMask 7 7 (2, 2) [((2 : ℤ), (2 : ℤ))]
    [((2 : ℤ), (2 : ℤ)), ((3 : ℤ), (3 : ℤ))] (by decide)

/-! ## Claim C10: invariants of findContours -/

/-- Invariant of a running trace, relative to the visited set visited0 seen at
the start of the trace: the contour has no duplicate points, every contour
point is visited, none was visited before this trace started, every contour
point is in bounds, and the visited set only grows. -/
def TraceInv (w h : ℕ) (visited0 visited contour : List Pt) : Prop :=
  contour.Nodup ∧
  (∀ p ∈ contour, p ∈ visited) ∧
  (∀ p ∈ contour, p ∉ visited0) ∧
  (∀ p ∈ contour, inBounds w h p = true) ∧
  (∀ p ∈ visited0, p ∈ visited)

/-- A qualifying pixel is in bounds and unvisited. -/
theorem candidate_spec (b : Pt → ℕ) (v : List Pt) (w h : ℕ) (n : Pt)
    (hc : candidate b v w h n = true) : inBounds w h n = true ∧ n ∉ v := by
  simp only [candidate, Bool.and_eq_true, Bool.not_eq_true', decide_eq_false_iff_not] at hc
  exact ⟨hc.1.1, hc.2⟩

/-- Marking an unvisited in-bounds pixel and appending it preserves the trace
invariant. -/
theorem pushPixel_inv (w h : ℕ) (visited0 : List Pt) (st : TraceState) (n : Pt)
    (hinv : TraceInv w h visited0 st.visited st.contour)
    (hb : inBounds w h n = true) (hnv : n ∉ st.visited) :
    TraceInv w h visited0 (pushPixel st n).visited (pushPixel st n).contour := by
  obtain ⟨h1, h2, h3, h4, h5⟩ := hinv
  refine ⟨?_, ?_, ?_, ?_, ?_⟩
  · simp only [pushPixel]
    rw [List.nodup_append]
    refine ⟨h1, List.nodup_singleton n, ?_⟩
    intro p hp hpn
    rw [List.mem_singleton] at hpn
    subst hpn
    exact hnv (h2 p hp)
  · intro p hp
    rcases List.mem_append.mp hp with hp | hp
    · exact List.mem_cons_of_mem n (h2 p hp)
    · rw [List.mem_singleton] at hp
      subst hp
      exact List.mem_cons_self p _
  · intro p hp
    rcases List.mem_append.mp hp with hp | hp
    · exact h3 p hp
    · rw [List.mem_singleton] at hp
      subst hp
      intro hp0
      exact hnv (h5 p hp0)
  · intro p hp
    rcases List.mem_append.mp hp with hp | hp
    · exact h4 p hp
    · rw [List.mem_singleton] at hp
      subst hp
      exact hb
  · intro p hp
    exact List.mem_cons_of_mem n (h5 p hp)

/-- One loop iteration preserves the trace invariant. -/
theorem traceStep_inv (b : Pt → ℕ) (w h : ℕ) (visited0 : List Pt) (st : TraceState)
    (hinv : TraceInv w h visited0 st.visited st.contour) :
    TraceInv w h visited0 (traceStep b w h st).visited (traceStep b w h st).contour := by
  obtain ⟨v, c, s⟩ := st
  rcases s with _ | ⟨p, rest⟩
  · exact hinv
  · rw [traceStep_cons]
    have hscan := neighborScan_eq b w h p ⟨v, c, rest⟩
    dsimp only at hscan
    dsimp only at hinv
    rcases hnb : findNeighbor b v w h p with _ | n
    · rw [hnb] at hscan
      simp only [hscan]
      split
      · have hring := ringScan_eq b w h p ⟨v, c, rest⟩
        dsimp only at hring
        rw [hring]
        rcases hr : findRing b v w h p with _ | q
        · exact hinv
        · have hcand : candidate b v w h q = true := by
            unfold findRing at hr
            exact List.find?_some hr
          obtain ⟨hb1, hnv⟩ := candidate_spec b v w h q hcand
          exact pushPixel_inv w h visited0 ⟨v, c, rest⟩ q hinv hb1 hnv
      · exact hinv
    · rw [hnb] at hscan
      simp only [hscan]
      have hcand : candidate b v w h n = true := by
        unfold findNeighbor at hnb
        exact List.find?_some hnb
      obtain ⟨hb1, hnv⟩ := candidate_spec b v w h n hcand
      have hpush := pushPixel_inv w h visited0 ⟨v, c, rest⟩ n hinv hb1 hnv
      simp only [Bool.not_true, Bool.false_and, Bool.false_eq_true, if_false]
      exact hpush

/-- The whole loop preserves the trace invariant, for any fuel. -/
theorem traceLoop_inv (b : Pt → ℕ) (w h : ℕ) (visited0 : List Pt) (fuel : ℕ)
    (st : TraceState) (hinv : TraceInv w h visited0 st.visited st.contour) :
    TraceInv w h visited0 (traceLoop b w h fuel st).visited
      (traceLoop b w h fuel st).contour := by
  induction fuel generalizing st with
  | zero => exact hinv
  | succ n ih =>
      rw [traceLoop]
      split
      · exact hinv
      · exact ih _ (traceStep_inv b w h visited0 st hinv)

/-- traceContour started on an unvisited in-bounds pixel returns a duplicate
free, in-bounds contour disjoint from the previously visited pixels, and only
grows the visited set. -/
theorem traceContour_inv (b : Pt → ℕ) (w h : ℕ) (sx sy : ℤ) (visited0 : List Pt)
    (hstart : ((sx, sy) : Pt) ∉ visited0) (hb : inBounds w h (sx, sy) = true) :
    TraceInv w h visited0 (traceContour b w h sx sy visited0).visited
      (traceContour b w h sx sy visited0).contour := by
  apply traceLoop_inv
  refine ⟨List.nodup_singleton _, ?_, ?_, ?_, ?_⟩
  · intro p hp
    rw [List.mem_singleton] at hp
    subst hp
    exact List.mem_cons_self _ _
  · intro p hp
    rw [List.mem_singleton] at hp
    subst hp
    exact hstart
  · intro p hp
    rw [List.mem_singleton] at hp
    subst hp
    exact hb
  · intro p hp
    exact List.mem_cons_of_mem _ hp

/-- Every scan coordinate is in bounds. -/
theorem scanCoords_inBounds (w h : ℕ) :
    ∀ q ∈ scanCoords w h, inBounds w h q = true := by
  intro q hq
  unfold scanCoords at hq
  rw [List.mem_flatMap] at hq
  obtain ⟨yi, hyi, hq2⟩ := hq
  rw [List.mem_map] at hq2
  obtain ⟨xi, hxi, hpair⟩ := hq2
  rw [List.mem_range] at hyi hxi
  subst hpair
  simp only [inBounds, Bool.and_eq_true, decide_eq_true_eq]
  refine ⟨⟨⟨?_, ?_⟩, ?_⟩, ?_⟩ <;> simp [Int.ofNat_eq_coe] <;> omega

/-- Invariant of the findContours scan: every retained contour is duplicate
free, longer than 2, in bounds, and contained in the visited set; distinct
retained contours are disjoint. -/
def FCInv (w h : ℕ) (acc : List Pt × List (List Pt)) : Prop :=
  (∀ c ∈ acc.2, c.Nodup ∧ 2 < c.length ∧ ∀ p ∈ c, inBounds w h p = true) ∧
  (∀ c ∈ acc.2, ∀ p ∈ c, p ∈ acc.1) ∧
  acc.2.Pairwise (fun c1 c2 => ∀ p ∈ c1, p ∉ c2)

/-- The scan fold of findContours preserves FCInv. -/
theorem findContours_fold_inv (binary : Pt → ℕ) (w h : ℕ) (coords : List Pt)
    (hcoords : ∀ q ∈ coords, inBounds w h q = true)
    (acc : List Pt × List (List Pt)) (hinv : FCInv w h acc) :
    FCInv w h (coords.foldl
      (fun (acc : List Pt × List (List Pt)) p =>
        if decide (blurAt binary w h p = 255) && !(decide (p ∈ acc.1)) then
          let st := traceContour (fun q => blurAt binary w h q) w h p.1 p.2 acc.1
          if 2 < st.contour.length then (st.visited, acc.2 ++ [st.contour])
          else (st.visited, acc.2)
        else acc)
      acc) := by
  induction coords generalizing acc with
  | nil => exact hinv
  | cons q t ih =>
      rw [List.foldl_cons]
      refine ih (fun x hx => hcoords x (List.mem_cons_of_mem q hx)) _ ?_
      by_cases htest : (decide (blurAt binary w h q = 255) && !(decide (q ∈ acc.1))) = true
      · rw [if_pos htest]
        have hqb : inBounds w h q = true := hcoords q (List.mem_cons_self q t)
        have hqv : q ∉ acc.1 := by
          simp only [Bool.and_eq_true, Bool.not_eq_true', decide_eq_false_iff_not] at htest
          exact htest.2
        have htr := traceContour_inv (fun x => blurAt binary w h x) w h q.1 q.2 acc.1
          (by simpa using hqv) (by simpa using hqb)
        obtain ⟨ht1, ht2, ht3, ht4, ht5⟩ := htr
        obtain ⟨hi1, hi2, hi3⟩ := hinv
        set st := traceContour (fun x => blurAt binary w h x) w h q.1 q.2 acc.1 with hst
        by_cases hlen : 2 < st.contour.length
        · rw [if_pos hlen]
          refine ⟨?_, ?_, ?_⟩
          · intro c hc
            rcases List.mem_append.mp hc with hc | hc
            · exact hi1 c hc
            · rw [List.mem_singleton] at hc
              subst hc
              exact ⟨ht1, hlen, ht4⟩
          · intro c hc p hp
            rcases List.mem_append.mp hc with hc | hc
            · exact ht5 p (hi2 c hc p hp)
            · rw [List.mem_singleton] at hc
              subst hc
              exact ht2 p hp
          · rw [List.pairwise_append]
            refine ⟨hi3, List.pairwise_singleton _ _, ?_⟩
            intro c1 hc1 c2 hc2 p hp1
            rw [List.mem_singleton] at hc2
            subst hc2
            intro hp2
            exact ht3 p hp2 (hi2 c1 hc1 p hp1)
        · rw [if_neg hlen]
          exact ⟨hi1, fun c hc p hp => ht5 p (hi2 c hc p hp), hi3⟩
      · rw [if_neg htest]
        exact hinv

/-- C10: every contour returned by findContours has at least 3 points, no
duplicated point, and all its points inside the image bounds; and no pixel
belongs to two different contours of the same call (the returned list is
pairwise disjoint).  These follow from the visited bitmap: a pixel is appended
to a contour only together with being marked visited, and only when it was
unvisited, and the bitmap is shared by all traces of the call. -/
theorem spec_C10_contour_invariants (binary : Pt → ℕ) (w h : ℕ) :
    (∀ c ∈ findContours binary w h,
      3 ≤ c.length ∧ c.Nodup ∧ ∀ p ∈ c, inBounds w h p = true) ∧
    (findContours binary w h).Pairwise (fun c1 c2 => ∀ p ∈ c1, p ∉ c2) := by
  have hfold := findContours_fold_inv binary w h (scanCoords w h)
    (scanCoords_inBounds w h) ([], [])
    ⟨fun c hc => absurd hc (List.not_mem_nil c),
     fun c hc => absurd hc (List.not_mem_nil c), List.Pairwise.nil⟩
  obtain ⟨h1, h2, h3⟩ := hfold
  constructor
  · intro c hc
    obtain ⟨ha, hb2, hc2⟩ := h1 c hc
    exact ⟨hb2, ha, hc2⟩
  · exact h3

/-- Mask with two adjacent foreground pixels at (2,2) and (3,2); after the
gap-bridging blur the foreground is the 2x3 block [2,3]x[1,3], which one trace
walks completely. -/
def blobMask : Pt → ℕ := fun p =>
  if p = ((2 : ℤ), (2 : ℤ)) ∨ p = ((3 : ℤ), (2 : ℤ)) then 255 else 0

set_option maxRecDepth 100000 in
/-- C10 witness: the single contour findContours returns on blobMask over a
5x5 canvas satisfies the invariants. -/
theorem spec_C10_witness :
    3 ≤ [((2 : ℤ), (1 : ℤ)), (3, 1), (2, 2), (3, 2), (2, 3), (3, 3)].length ∧
    ([((2 : ℤ), (1 : ℤ)), (3, 1), (2, 2), (3, 2), (2, 3), (3, 3)] : List Pt).Nodup ∧
    ∀ p ∈ [((2 : ℤ), (1 : ℤ)), (3, 1), (2, 2), (3, 2), (2, 3), (3, 3)],
      inBounds 5 5 p = true :=
  (spec_C10_contour_invariants blobMask 5 5).1
    [((2 : ℤ), (1 : ℤ)), (3, 1), (2, 2), (3, 2), (2, 3), (3, 3)] (by decide)

/-! ## Polygon simplification (approxPolyDP lines 534-566,
perpendicularDistance lines 575-584)

perpendicularDistance returns area / sqrt(lengthSq) where area is the integer
|(y2-y1)x - (x2-x1)y + x2*y1 - y2*x1| and lengthSq = (y2-y1)^2 + (x2-x1)^2.
Within one approxPolyDP call every distance is taken from the SAME line
(firstPoint, lastPoint), so all distances share the denominator sqrt(lengthSq):

* the comparisons dist > maxDist of line 548 reduce exactly to comparisons of
  the integer numerators (when the line is degenerate, lengthSq = 0, every
  JavaScript distance is NaN = 0/0 - the numerator is then also always 0 - and
  NaN > x is false, which again matches the numerator comparison, since the
  running maximum starts at 0 and a numerator 0 is never > 0);
* the test maxDist > epsilon of line 555 is decided in maxDistGt below.

The numerators are exact in doubles for pixel coordinates, so this integer
embedding reproduces the floating-point run. -/

/-- Lines 575-581: the integer numerator (the area variable of the source) of
perpendicularDistance from a point to the line through lineStart and lineEnd. -/
def perpArea (point lineStart lineEnd : Pt) : ℤ :=
  |(lineEnd.2 - lineStart.2) * point.1 - (lineEnd.1 - lineStart.1) * point.2 +
    lineEnd.1 * lineStart.2 - lineEnd.2 * lineStart.1|

/-- Line 581: the squared length of the line segment (before the square root). -/
def lineLenSq (lineStart lineEnd : Pt) : ℤ :=
  (lineEnd.2 - lineStart.2) * (lineEnd.2 - lineStart.2) +
    (lineEnd.1 - lineStart.1) * (lineEnd.1 - lineStart.1)

/-- A fold computing the running strict maximum with its first index. -/
def foldMax (f : ℕ → ℤ) (is : List ℕ) (init : ℤ × ℕ) : ℤ × ℕ :=
  is.foldl (fun acc i => if f i > acc.1 then (f i, i) else acc) init

/-- Lines 539-552: scan the interior points i = 1 .. length-2, keeping the
first index of maximum distance; maxDist starts at 0 and index at 0. -/
def findMaxScan (c : List Pt) (p1 p2 : Pt) : ℤ × ℕ :=
  foldMax (fun i => perpArea (c.getD i (0, 0)) p1 p2) (List.range' 1 (c.length - 2)) (0, 0)

/-- Line 555, maxDist > epsilon, decided exactly: for maxA = 0 the JavaScript
maxDist is the number 0 (no update happened), so the test is 0 > eps; for
maxA > 0 the line is nondegenerate and maxA / sqrt lenSq > eps holds iff
eps < 0 or maxA^2 > eps^2 * lenSq. -/
def maxDistGt (maxA : ℤ) (lenSq : ℤ) (eps : ℚ) : Bool :=
  if maxA = 0 then decide ((0 : ℚ) > eps)
  else decide (eps < 0 ∨ ((maxA : ℚ) * maxA > eps * eps * (lenSq : ℚ)))

/-- Lines 534-566: approxPolyDP, with explicit fuel.  Every recursive call is
on a strictly shorter slice whenever index is nonzero, so fuel length+1 always
suffices; fuel exhaustion (result none) occurs exactly in the one situation
where the JavaScript recursion does not terminate: maxDist > epsilon with
index still 0 - possible only for epsilon < 0 - where contour.slice(0) is the
whole contour again. -/
def approxGo : ℕ → List Pt → ℚ → Option (List Pt)
  | 0, _, _ => none
  | fuel + 1, c, eps =>
      if c.length ≤ 2 then some c
      else
        if maxDistGt (findMaxScan c (c.getD 0 (0, 0)) (c.getD (c.length - 1) (0, 0))).1
            (lineLenSq (c.getD 0 (0, 0)) (c.getD (c.length - 1) (0, 0))) eps then
          match approxGo fuel
              (c.take ((findMaxScan c (c.getD 0 (0, 0)) (c.getD (c.length - 1) (0, 0))).2 + 1))
              eps with
          | none => none
          | some firstHalf =>
              match approxGo fuel
                  (c.drop ((findMaxScan c (c.getD 0 (0, 0)) (c.getD (c.length - 1) (0, 0))).2))
                  eps with
              | none => none
              | some secondHalf => some (firstHalf.dropLast ++ secondHalf)
        else some [c.getD 0 (0, 0), c.getD (c.length - 1) (0, 0)]

/-- approxPolyDP(contour, epsilon): some result, or none when the JavaScript
recursion would not terminate (only possible for epsilon < 0). -/
def approxPolyDP (c : List Pt) (eps : ℚ) : Option (List Pt) :=
  approxGo (c.length + 1) c eps

/-- The running maximum never decreases and bounds every scanned value. -/
theorem foldMax_bound (f : ℕ → ℤ) (is : List ℕ) (init : ℤ × ℕ) :
    init.1 ≤ (foldMax f is init).1 ∧ ∀ j ∈ is, f j ≤ (foldMax f is init).1 := by
  induction is generalizing init with
  | nil => exact ⟨le_refl _, fun j hj => absurd hj (List.not_mem_nil j)⟩
  | cons i t ih =>
      unfold foldMax at ih ⊢
      rw [List.foldl_cons]
      by_cases hi : f i > init.1
      · rw [if_pos hi]
        obtain ⟨h1, h2⟩ := ih (f i, i)
        refine ⟨le_trans (le_of_lt hi) h1, fun j hj => ?_⟩
        rcases List.mem_cons.mp hj with hj | hj
        · subst hj
          exact h1
        · exact h2 j hj
      · rw [if_neg hi]
        obtain ⟨h1, h2⟩ := ih init
        refine ⟨h1, fun j hj => ?_⟩
        rcases List.mem_cons.mp hj with hj | hj
        · subst hj
          exact le_trans (not_lt.mp hi) h1
        · exact h2 j hj

/-- The fold either returns its initial pair unchanged or returns a strictly
larger value attained at one of the scanned indices. -/
theorem foldMax_attained (f : ℕ → ℤ) (is : List ℕ) (init : ℤ × ℕ) :
    foldMax f is init = init ∨
    (f (foldMax f is init).2 = (foldMax f is init).1 ∧
      (foldMax f is init).2 ∈ is ∧ init.1 < (foldMax f is init).1) := by
  induction is generalizing init with
  | nil => left; rfl
  | cons i t ih =>
      unfold foldMax at ih ⊢
      rw [List.foldl_cons]
      by_cases hi : f i > init.1
      · rw [if_pos hi]
        rcases ih (f i, i) with h | ⟨h1, h2, h3⟩
        · right
          rw [h]
          exact ⟨rfl, List.mem_cons_self i t, hi⟩
        · right
          exact ⟨h1, List.mem_cons_of_mem i h2, lt_trans hi h3⟩
      · rw [if_neg hi]
        rcases ih init with h | ⟨h1, h2, h3⟩
        · left; exact h
        · right
          exact ⟨h1, List.mem_cons_of_mem i h2, h3⟩

/-- If no scanned value exceeds the initial value, the fold is the identity. -/
theorem foldMax_stay (f : ℕ → ℤ) (is : List ℕ) (init : ℤ × ℕ)
    (h : ∀ j ∈ is, f j ≤ init.1) : foldMax f is init = init := by
  induction is generalizing init with
  | nil => rfl
  | cons i t ih =>
      unfold foldMax at ih ⊢
      rw [List.foldl_cons, if_neg (not_lt.mpr (h i (List.mem_cons_self i t)))]
      exact ih init (fun j hj => h j (List.mem_cons_of_mem i hj))

/-- Values scanned strictly before the final index are strictly below the
final maximum, provided the indices are increasing and start at or after the
initial index. -/
theorem foldMax_prefix_lt (f : ℕ → ℤ) (is : List ℕ) (init : ℤ × ℕ)
    (hsorted : List.Pairwise (· < ·) is) (hinit : ∀ j ∈ is, init.2 ≤ j) :
    ∀ j ∈ is, j < (foldMax f is init).2 → f j < (foldMax f is init).1 := by
  induction is generalizing init with
  | nil => exact fun j hj => absurd hj (List.not_mem_nil j)
  | cons i t ih =>
      have hsort2 := (List.pairwise_cons.mp hsorted).1
      have hsorted3 := (List.pairwise_cons.mp hsorted).2
      intro j hj hjlt
      unfold foldMax at hjlt ⊢
      rw [List.foldl_cons] at hjlt ⊢
      by_cases hi : f i > init.1
      · rw [if_pos hi] at hjlt ⊢
        rcases List.mem_cons.mp hj with hj | hj
        · subst hj
          rcases foldMax_attained f t (f j, j) with h | ⟨h1, h2, h3⟩
          · unfold foldMax at h
            rw [h] at hjlt
            exact absurd hjlt (lt_irrefl j)
          · unfold foldMax at h3
            exact h3
        · exact ih (f i, i) (hsorted3) (fun x hx => le_of_lt (hsort2 x hx)) j hj hjlt
      · rw [if_neg hi] at hjlt ⊢
        rcases List.mem_cons.mp hj with hj | hj
        · subst hj
          rcases foldMax_attained f t init with h | ⟨h1, h2, h3⟩
          · unfold foldMax at h
            rw [h] at hjlt
            exact absurd hjlt (not_lt.mpr (hinit j (List.mem_cons_self j t)))
          · unfold foldMax at h3
            exact lt_of_le_of_lt (not_lt.mp hi) h3
        · exact ih init hsorted3 (fun x hx => hinit x (List.mem_cons_of_mem i hx)) j hj hjlt

/-- First-maximum characterization: if pos is a scanned index attaining the
bound M, every scanned value is at most M, every scanned index before pos is
strictly below M, and M beats the initial value, the fold ends at (M, pos). -/
theorem foldMax_first_max (f : ℕ → ℤ) (is : List ℕ) (init : ℤ × ℕ) (M : ℤ) (pos : ℕ)
    (hsorted : List.Pairwise (· < ·) is) (hpos : pos ∈ is) (hfpos : f pos = M)
    (hbound : ∀ j ∈ is, f j ≤ M) (hstrict : ∀ j ∈ is, j < pos → f j < M)
    (hM : init.1 < M) : foldMax f is init = (M, pos) := by
  induction is generalizing init with
  | nil => exact absurd hpos (List.not_mem_nil pos)
  | cons i t ih =>
      have hsort2 := (List.pairwise_cons.mp hsorted).1
      have hsorted3 := (List.pairwise_cons.mp hsorted).2
      unfold foldMax at ih ⊢
      rw [List.foldl_cons]
      rcases List.mem_cons.mp hpos with hip | hpt
      · -- i = pos: the maximum is taken here and never beaten afterwards
        subst hip
        rw [if_pos (hfpos ▸ hM)]
        rw [hfpos]
        exact foldMax_stay f t (M, pos) (fun j hj => hbound j (List.mem_cons_of_mem pos hj))
      · -- pos is later; i is strictly before pos
        have hilt : i < pos := hsort2 pos hpt
        have hfi : f i < M := hstrict i (List.mem_cons_self i t) hilt
        by_cases hi : f i > init.1
        · rw [if_pos hi]
          exact ih (f i, i) hsorted3 hpt
            (fun j hj => hbound j (List.mem_cons_of_mem i hj))
            (fun j hj hjp => hstrict j (List.mem_cons_of_mem i hj) hjp) hfi
        · rw [if_neg hi]
          exact ih init hsorted3 hpt
            (fun j hj => hbound j (List.mem_cons_of_mem i hj))
            (fun j hj hjp => hstrict j (List.mem_cons_of_mem i hj) hjp) hM

/-- Characterization of the maximum-distance scan: it returns (0, 0) when no
interior numerator is positive, else its first strict maximum with index in
[1, length-2]; the result bounds all interior numerators, and every interior
numerator strictly before the returned index is strictly below the maximum. -/
theorem findMaxScan_spec (c : List Pt) (p1 p2 : Pt) :
    (findMaxScan c p1 p2 = (0, 0) ∨
      (0 < (findMaxScan c p1 p2).1 ∧ 1 ≤ (findMaxScan c p1 p2).2 ∧
        (findMaxScan c p1 p2).2 ≤ c.length - 2 ∧
        perpArea (c.getD (findMaxScan c p1 p2).2 (0, 0)) p1 p2 =
          (findMaxScan c p1 p2).1)) ∧
    (∀ j, 1 ≤ j → j ≤ c.length - 2 →
      perpArea (c.getD j (0, 0)) p1 p2 ≤ (findMaxScan c p1 p2).1) ∧
    (∀ j, 1 ≤ j → j < (findMaxScan c p1 p2).2 →
      perpArea (c.getD j (0, 0)) p1 p2 < (findMaxScan c p1 p2).1) := by
  unfold findMaxScan
  refine ⟨?_, ?_, ?_⟩
  · rcases foldMax_attained (fun i => perpArea (c.getD i (0, 0)) p1 p2)
        (List.range' 1 (c.length - 2)) (0, 0) with h | ⟨h1, h2, h3⟩
    · left
      exact h
    · right
      rw [List.mem_range'_1] at h2
      exact ⟨h3, h2.1, by omega, h1⟩
  · intro j hj1 hj2
    exact (foldMax_bound _ _ _).2 j (List.mem_range'_1.mpr ⟨hj1, by omega⟩)
  · intro j hj1 hjlt
    have hmem : j ∈ List.range' 1 (c.length - 2) := by
      rcases foldMax_attained (fun i => perpArea (c.getD i (0, 0)) p1 p2)
          (List.range' 1 (c.length - 2)) (0, 0) with h | ⟨h1, h2, h3⟩
      · rw [h] at hjlt
        exact absurd hjlt (by omega)
      · rw [List.mem_range'_1] at h2
        exact List.mem_range'_1.mpr ⟨hj1, by omega⟩
    exact foldMax_prefix_lt _ _ _ (List.pairwise_lt_range' 1 (c.length - 2))
      (fun x hx => Nat.zero_le x) j hmem hjlt

/-- In the one situation where the JavaScript recursion does not terminate
(maximum distance above epsilon but index 0), the embedding is none for every
fuel. -/
theorem approxGo_diverge (c : List Pt) (eps : ℚ) (h3 : ¬ c.length ≤ 2)
    (htest : maxDistGt (findMaxScan c (c.getD 0 (0, 0)) (c.getD (c.length - 1) (0, 0))).1
      (lineLenSq (c.getD 0 (0, 0)) (c.getD (c.length - 1) (0, 0))) eps = true)
    (hidx : (findMaxScan c (c.getD 0 (0, 0)) (c.getD (c.length - 1) (0, 0))).2 = 0) :
    ∀ fuel, approxGo fuel c eps = none := by
  intro fuel
  induction fuel with
  | zero => rfl
  | succ n ih =>
      rw [approxGo, if_neg h3, if_pos htest, hidx]
      rw [List.drop_zero, ih]
      rcases approxGo n (c.take (0 + 1)) eps with _ | fh <;> rfl

/-- Above the canonical fuel, the fuel does not matter. -/
theorem approxGo_fuel (fuel : ℕ) (c : List Pt) (eps : ℚ) (hf : c.length < fuel) :
    approxGo fuel c eps = approxPolyDP c eps := by
  induction fuel using Nat.strong_induction_on generalizing c with
  | _ fuel ih =>
      obtain ⟨f, rfl⟩ : ∃ f, fuel = f + 1 := ⟨fuel - 1, by omega⟩
      unfold approxPolyDP
      by_cases h2 : c.length ≤ 2
      · rw [approxGo, if_pos h2, approxGo, if_pos h2]
      · by_cases htest : maxDistGt
            (findMaxScan c (c.getD 0 (0, 0)) (c.getD (c.length - 1) (0, 0))).1
            (lineLenSq (c.getD 0 (0, 0)) (c.getD (c.length - 1) (0, 0))) eps = true
        · by_cases hidx :
              (findMaxScan c (c.getD 0 (0, 0)) (c.getD (c.length - 1) (0, 0))).2 = 0
          · rw [approxGo_diverge c eps h2 htest hidx (f + 1),
              approxGo_diverge c eps h2 htest hidx (c.length + 1)]
          · have hspec := (findMaxScan_spec c (c.getD 0 (0, 0))
              (c.getD (c.length - 1) (0, 0))).1
            have hbounds : 1 ≤ (findMaxScan c (c.getD 0 (0, 0))
                (c.getD (c.length - 1) (0, 0))).2 ∧
                (findMaxScan c (c.getD 0 (0, 0)) (c.getD (c.length - 1) (0, 0))).2 ≤
                  c.length - 2 := by
              rcases hspec with h | ⟨ha, hb, hc, hd⟩
              · exact absurd (congrArg Prod.snd h) hidx
              · exact ⟨hb, hc⟩
            rw [approxGo, if_neg h2, if_pos htest, approxGo, if_neg h2, if_pos htest]
            have hlt1 : (c.take ((findMaxScan c (c.getD 0 (0, 0))
                (c.getD (c.length - 1) (0, 0))).2 + 1)).length < f := by
              rw [List.length_take]
              omega
            have hlt2 : (c.drop ((findMaxScan c (c.getD 0 (0, 0))
                (c.getD (c.length - 1) (0, 0))).2)).length < f := by
              rw [List.length_drop]
              omega
            have hlt1b : (c.take ((findMaxScan c (c.getD 0 (0, 0))
                (c.getD (c.length - 1) (0, 0))).2 + 1)).length < c.length := by
              rw [List.length_take]
              omega
            have hlt2b : (c.drop ((findMaxScan c (c.getD 0 (0, 0))
                (c.getD (c.length - 1) (0, 0))).2)).length < c.length := by
              rw [List.length_drop]
              omega
            rw [ih f (by omega) _ hlt1, ih (c.length) (by omega) _ hlt1b,
              ih f (by omega) _ hlt2, ih (c.length) (by omega) _ hlt2b]
        · rw [approxGo, if_neg h2, if_neg htest, approxGo, if_neg h2, if_neg htest]

/-- One-step unfolding of approxPolyDP on a contour of 3 or more points, with
the recursive calls again at canonical fuel. -/
theorem approxPolyDP_step (c : List Pt) (eps : ℚ) (h3 : ¬ c.length ≤ 2) :
    approxPolyDP c eps =
      if maxDistGt (findMaxScan c (c.getD 0 (0, 0)) (c.getD (c.length - 1) (0, 0))).1
          (lineLenSq (c.getD 0 (0, 0)) (c.getD (c.length - 1) (0, 0))) eps then
        if (findMaxScan c (c.getD 0 (0, 0)) (c.getD (c.length - 1) (0, 0))).2 = 0 then
          none
        else
          match approxPolyDP
              (c.take ((findMaxScan c (c.getD 0 (0, 0))
                (c.getD (c.length - 1) (0, 0))).2 + 1)) eps with
          | none => none
          | some firstHalf =>
              match approxPolyDP
                  (c.drop ((findMaxScan c (c.getD 0 (0, 0))
                    (c.getD (c.length - 1) (0, 0))).2)) eps with
              | none => none
              | some secondHalf => some (firstHalf.dropLast ++ secondHalf)
      else some [c.getD 0 (0, 0), c.getD (c.length - 1) (0, 0)] := by
  by_cases htest : maxDistGt
      (findMaxScan c (c.getD 0 (0, 0)) (c.getD (c.length - 1) (0, 0))).1
      (lineLenSq (c.getD 0 (0, 0)) (c.getD (c.length - 1) (0, 0))) eps = true
  · by_cases hidx :
        (findMaxScan c (c.getD 0 (0, 0)) (c.getD (c.length - 1) (0, 0))).2 = 0
    · rw [if_pos htest, if_pos hidx]
      exact approxGo_diverge c eps h3 htest hidx (c.length + 1)
    · rw [if_pos htest, if_neg hidx]
      have hbounds : 1 ≤ (findMaxScan c (c.getD 0 (0, 0))
          (c.getD (c.length - 1) (0, 0))).2 ∧
          (findMaxScan c (c.getD 0 (0, 0)) (c.getD (c.length - 1) (0, 0))).2 ≤
            c.length - 2 := by
        rcases (findMaxScan_spec c (c.getD 0 (0, 0)) (c.getD (c.length - 1) (0, 0))).1
          with h | ⟨ha, hb, hc, hd⟩
        · exact absurd (congrArg Prod.snd h) hidx
        · exact ⟨hb, hc⟩
      unfold approxPolyDP
      rw [approxGo, if_neg h3, if_pos htest]
      rw [approxGo_fuel c.length _ eps (by rw [List.length_take]; omega),
        approxGo_fuel c.length _ eps (by rw [List.length_drop]; omega)]
      rfl
  · rw [if_neg htest]
    unfold approxPolyDP
    rw [approxGo, if_neg h3, if_neg htest]

/-- Helper: head? of a nonempty list as a getD at 0. -/
theorem head?_eq_getD (c : List Pt) (hc : c ≠ []) : c.head? = some (c.getD 0 (0, 0)) := by
  cases c with
  | nil => exact absurd rfl hc
  | cons a t => rfl

/-- Helper: getLast? of a nonempty list as a getD at length - 1. -/
theorem getLast?_eq_getD (c : List Pt) (hc : c ≠ []) :
    c.getLast? = some (c.getD (c.length - 1) (0, 0)) := by
  have hlt : c.length - 1 < c.length := by
    have := List.length_pos.mpr hc
    omega
  rw [List.getLast?_eq_getElem?, List.getElem?_eq_getElem hlt,
    List.getD_eq_getElem c (0, 0) hlt]

/-- Helper: head? of an append with nonempty left part. -/
theorem head?_append_left (l1 l2 : List Pt) (h : l1 ≠ []) :
    (l1 ++ l2).head? = l1.head? := by
  cases l1 with
  | nil => exact absurd rfl h
  | cons a t => rfl

/-- Helper: getLast? of an append with nonempty right part. -/
theorem getLast?_append_right (l1 l2 : List Pt) (h : l2 ≠ []) :
    (l1 ++ l2).getLast? = l2.getLast? := by
  rw [List.getLast?_append]
  cases hl : l2.getLast? with
  | none => exact absurd (List.getLast?_eq_none_iff.mp hl) h
  | some a => rfl

/-- Helper: dropping the last element of a list of 2 or more keeps the head. -/
theorem dropLast_head? (l : List Pt) (h : 2 ≤ l.length) :
    l.dropLast.head? = l.head? := by
  match l, h with
  | a :: b :: t, _ => rfl

/-- Helper: the head of a nonzero-length take is the head of the list. -/
theorem take_head? (c : List Pt) (k : ℕ) (hk : 1 ≤ k) :
    (c.take k).head? = c.head? := by
  cases c with
  | nil => simp
  | cons a t =>
      match k, hk with
      | j + 1, _ => rfl

/-- Helper: the last element of a nontrivial drop is the last of the list. -/
theorem drop_getLast? (c : List Pt) (k : ℕ) (hk : k < c.length) :
    (c.drop k).getLast? = c.getLast? := by
  conv_rhs => rw [← List.take_append_drop k c]
  rw [getLast?_append_right]
  intro hnil
  have := congrArg List.length hnil
  rw [List.length_drop] at this
  simp at this
  omega

/-- Helper: a take of one more element, split at its last element. -/
theorem take_succ_getD (c : List Pt) (i : ℕ) (hi : i < c.length) :
    c.take (i + 1) = c.take i ++ [c.getD i (0, 0)] := by
  rw [List.take_succ, List.getElem?_eq_getElem hi, List.getD_eq_getElem c (0, 0) hi]
  rfl

/-- Structural facts preserved by one approxPolyDP result: a short contour is
returned unchanged, longer ones yield at least 2 points, the endpoints are
preserved, and no point gains multiplicity. -/
def ApproxFacts (c r : List Pt) : Prop :=
  (c.length ≤ 2 → r = c) ∧ (2 ≤ c.length → 2 ≤ r.length) ∧
  r.head? = c.head? ∧ r.getLast? = c.getLast? ∧
  ∀ a : Pt, r.count a ≤ c.count a

/-- The facts hold trivially when the contour is returned unchanged. -/
theorem approx_facts_short (eps : ℚ) (c : List Pt) (h2 : c.length ≤ 2) (r : List Pt)
    (hr : approxPolyDP c eps = some r) : ApproxFacts c r := by
  rw [approxPolyDP, approxGo, if_pos h2] at hr
  obtain rfl : c = r := Option.some.inj hr
  exact ⟨fun _ => rfl, fun h => h, rfl, rfl, fun a => le_refl _⟩

/-- The facts hold for the collapse branch, which keeps just the endpoints. -/
theorem approx_facts_collapse (c : List Pt) (h3 : ¬ c.length ≤ 2) :
    ApproxFacts c [c.getD 0 (0, 0), c.getD (c.length - 1) (0, 0)] := by
  have hne : c ≠ [] := by
    intro h
    rw [h] at h3
    simp at h3
  refine ⟨fun h => absurd h h3, fun _ => by simp, ?_, ?_, ?_⟩
  · rw [head?_eq_getD c hne]
    rfl
  · rw [getLast?_eq_getD c hne]
    rfl
  · obtain ⟨a, t, rfl⟩ := List.exists_cons_of_ne_nil hne
    have ht : t ≠ [] := by
      intro h
      subst h
      simp at h3
    have hgd0 : (a :: t).getD 0 (0, 0) = a := rfl
    have hlast : (a :: t).getD ((a :: t).length - 1) (0, 0) = t.getLast ht := by
      have h1 := getLast?_eq_getD (a :: t) hne
      have h2 := List.getLast?_eq_getLast (a :: t) hne
      rw [h2] at h1
      have h4 := List.getLast_cons (a := a) ht
      rw [h4] at h1
      exact (Option.some.inj h1).symm
    rw [hgd0, hlast]
    intro x
    refine List.Sublist.count_le ?_ x
    exact List.Sublist.cons₂ a (List.singleton_sublist.mpr (List.getLast_mem ht))

/-- Every approxPolyDP result satisfies the structural facts. -/
theorem approx_structure (eps : ℚ) : ∀ (n : ℕ) (c : List Pt), c.length ≤ n →
    ∀ r, approxPolyDP c eps = some r → ApproxFacts c r := by
  intro n
  induction n with
  | zero =>
      intro c hc r hr
      exact approx_facts_short eps c (by omega) r hr
  | succ n ih =>
      intro c hc r hr
      by_cases h2 : c.length ≤ 2
      · exact approx_facts_short eps c h2 r hr
      · rw [approxPolyDP_step c eps h2] at hr
        by_cases htest : maxDistGt
            (findMaxScan c (c.getD 0 (0, 0)) (c.getD (c.length - 1) (0, 0))).1
            (lineLenSq (c.getD 0 (0, 0)) (c.getD (c.length - 1) (0, 0))) eps = true
        swap
        · rw [if_neg htest] at hr
          obtain rfl := Option.some.inj hr
          exact approx_facts_collapse c h2
        · rw [if_pos htest] at hr
          by_cases hidx :
              (findMaxScan c (c.getD 0 (0, 0)) (c.getD (c.length - 1) (0, 0))).2 = 0
          · rw [if_pos hidx] at hr
            exact absurd hr (by simp)
          · rw [if_neg hidx] at hr
            have hbounds : 1 ≤ (findMaxScan c (c.getD 0 (0, 0))
                (c.getD (c.length - 1) (0, 0))).2 ∧
                (findMaxScan c (c.getD 0 (0, 0)) (c.getD (c.length - 1) (0, 0))).2 ≤
                  c.length - 2 := by
              rcases (findMaxScan_spec c (c.getD 0 (0, 0))
                (c.getD (c.length - 1) (0, 0))).1 with h | ⟨ha, hb, hc2, hd⟩
              · exact absurd (congrArg Prod.snd h) hidx
              · exact ⟨hb, hc2⟩
            set idx := (findMaxScan c (c.getD 0 (0, 0))
              (c.getD (c.length - 1) (0, 0))).2 with hidxdef
            rcases h1 : approxPolyDP (c.take (idx + 1)) eps with _ | fh
            · rw [h1] at hr
              exact absurd hr (by simp)
            rcases hq2 : approxPolyDP (c.drop idx) eps with _ | sh
            · rw [h1, hq2] at hr
              exact absurd hr (by simp)
            rw [h1, hq2] at hr
            obtain rfl : fh.dropLast ++ sh = r := Option.some.inj hr
            have hlen1 : (c.take (idx + 1)).length = idx + 1 := by
              rw [List.length_take]
              omega
            have hlen2 : (c.drop idx).length = c.length - idx := List.length_drop idx c
            obtain ⟨hf1a, hf1b, hf1c, hf1d, hf1e⟩ := ih (c.take (idx + 1)) (by omega) fh h1
            obtain ⟨hf2a, hf2b, hf2c, hf2d, hf2e⟩ := ih (c.drop idx) (by omega) sh hq2
            have hfhlen : 2 ≤ fh.length := hf1b (by omega)
            have hshlen : 2 ≤ sh.length := hf2b (by omega)
            have hfhne : fh ≠ [] := by
              intro h
              subst h
              simp at hfhlen
            have hshne : sh ≠ [] := by
              intro h
              subst h
              simp at hshlen
            have hdlne : fh.dropLast ≠ [] := by
              intro h
              have h5 := congrArg List.length h
              rw [List.length_dropLast] at h5
              simp at h5
              omega
            have hcne : c ≠ [] := by
              intro h
              subst h
              simp at h2
            refine ⟨fun h => absurd h h2, ?_, ?_, ?_, ?_⟩
            · intro _
              rw [List.length_append, List.length_dropLast]
              omega
            · rw [head?_append_left _ _ hdlne, dropLast_head? fh hfhlen, hf1c,
                take_head? c (idx + 1) (by omega)]
            · rw [getLast?_append_right _ _ hshne, hf2d,
                drop_getLast? c idx (by omega)]
            · intro a
              have hsplit : c.take (idx + 1) = c.take idx ++ [c.getD idx (0, 0)] :=
                take_succ_getD c idx (by omega)
              have hlastfh : fh.getLast? = some (c.getD idx (0, 0)) := by
                rw [hf1d, getLast?_eq_getD _ (by
                  intro h
                  rw [h] at hlen1
                  simp at hlen1), hlen1]
                simp only [Nat.add_sub_cancel]
                congr 1
                rw [List.getD_eq_getElem _ _ (by rw [hlen1]; omega),
                  List.getD_eq_getElem _ _ (by omega : idx < c.length)]
                exact List.getElem_take c
              have hfh_split : fh.dropLast ++ [c.getD idx (0, 0)] = fh := by
                have h6 := List.getLast?_eq_getLast fh hfhne
                rw [h6] at hlastfh
                have h7 := Option.some.inj hlastfh
                rw [← h7]
                exact List.dropLast_append_getLast hfhne
              have hcount1 : fh.dropLast.count a + [c.getD idx (0, 0)].count a ≤
                  (c.take idx).count a + [c.getD idx (0, 0)].count a := by
                rw [← List.count_append, hfh_split, ← List.count_append, ← hsplit]
                exact hf1e a
              have hcount2 : fh.dropLast.count a ≤ (c.take idx).count a :=
                Nat.le_of_add_le_add_right hcount1
              calc (fh.dropLast ++ sh).count a
                  = fh.dropLast.count a + sh.count a := List.count_append a _ _
                _ ≤ (c.take idx).count a + (c.drop idx).count a := by
                    exact Nat.add_le_add hcount2 (hf2e a)
                _ = c.count a := by
                    rw [← List.count_append, List.take_append_drop]

/-- The distance numerator of the line start itself is 0. -/
theorem perpArea_lineStart (p1 p2 : Pt) : perpArea p1 p1 p2 = 0 := by
  unfold perpArea
  have h : (p2.2 - p1.2) * p1.1 - (p2.1 - p1.1) * p1.2 + p2.1 * p1.2 - p2.2 * p1.1 = 0 := by
    ring
  rw [h]
  rfl

/-- The distance numerator of the line end itself is 0. -/
theorem perpArea_lineEnd (p1 p2 : Pt) : perpArea p2 p1 p2 = 0 := by
  unfold perpArea
  have h : (p2.2 - p1.2) * p2.1 - (p2.1 - p1.1) * p2.2 + p2.1 * p1.2 - p2.2 * p1.1 = 0 := by
    ring
  rw [h]
  rfl

/-- Idempotence, by induction on a length bound. -/
theorem approx_idem_aux (eps : ℚ) : ∀ (n : ℕ) (c : List Pt), c.length ≤ n →
    ∀ r, approxPolyDP c eps = some r → approxPolyDP r eps = some r := by
  intro n
  induction n with
  | zero =>
      intro c hc r hr
      obtain rfl : r = c := (approx_facts_short eps c (by omega) r hr).1 (by omega)
      exact hr
  | succ n ih =>
      intro c hc r hr
      by_cases h2 : c.length ≤ 2
      · obtain rfl : r = c := (approx_facts_short eps c h2 r hr).1 h2
        exact hr
      · have hr0 := hr
        rw [approxPolyDP_step c eps h2] at hr
        by_cases htest : maxDistGt
            (findMaxScan c (c.getD 0 (0, 0)) (c.getD (c.length - 1) (0, 0))).1
            (lineLenSq (c.getD 0 (0, 0)) (c.getD (c.length - 1) (0, 0))) eps = true
        swap
        · rw [if_neg htest] at hr
          obtain rfl := Option.some.inj hr
          rw [approxPolyDP, approxGo, if_pos (by simp)]
        · rw [if_pos htest] at hr
          by_cases hidx :
              (findMaxScan c (c.getD 0 (0, 0)) (c.getD (c.length - 1) (0, 0))).2 = 0
          · rw [if_pos hidx] at hr
            exact absurd hr (by simp)
          · rw [if_neg hidx] at hr
            have hspec := findMaxScan_spec c (c.getD 0 (0, 0)) (c.getD (c.length - 1) (0, 0))
            have hattained : 0 < (findMaxScan c (c.getD 0 (0, 0))
                (c.getD (c.length - 1) (0, 0))).1 ∧
                1 ≤ (findMaxScan c (c.getD 0 (0, 0)) (c.getD (c.length - 1) (0, 0))).2 ∧
                (findMaxScan c (c.getD 0 (0, 0)) (c.getD (c.length - 1) (0, 0))).2 ≤
                  c.length - 2 ∧
                perpArea (c.getD (findMaxScan c (c.getD 0 (0, 0))
                  (c.getD (c.length - 1) (0, 0))).2 (0, 0)) (c.getD 0 (0, 0))
                  (c.getD (c.length - 1) (0, 0)) =
                  (findMaxScan c (c.getD 0 (0, 0)) (c.getD (c.length - 1) (0, 0))).1 := by
              rcases hspec.1 with h | h
              · exact absurd (congrArg Prod.snd h) hidx
              · exact h
            set maxA := (findMaxScan c (c.getD 0 (0, 0))
              (c.getD (c.length - 1) (0, 0))).1 with hmaxAdef
            set idx := (findMaxScan c (c.getD 0 (0, 0))
              (c.getD (c.length - 1) (0, 0))).2 with hidxdef
            rcases h1 : approxPolyDP (c.take (idx + 1)) eps with _ | fh
            · rw [h1] at hr
              exact absurd hr (by simp)
            rcases hq2 : approxPolyDP (c.drop idx) eps with _ | sh
            · rw [h1, hq2] at hr
              exact absurd hr (by simp)
            rw [h1, hq2] at hr
            obtain rfl : fh.dropLast ++ sh = r := Option.some.inj hr
            have hlen1 : (c.take (idx + 1)).length = idx + 1 := by
              rw [List.length_take]
              omega
            have hlen2 : (c.drop idx).length = c.length - idx := List.length_drop idx c
            obtain ⟨hf1a, hf1b, hf1c, hf1d, hf1e⟩ :=
              approx_structure eps (idx + 1) (c.take (idx + 1)) (by omega) fh h1
            obtain ⟨hf2a, hf2b, hf2c, hf2d, hf2e⟩ :=
              approx_structure eps c.length (c.drop idx) (by omega) sh hq2
            obtain ⟨hra, hrb, hrc, hrd, hre⟩ :=
              approx_structure eps (n + 1) c hc _ hr0
            have hidem1 : approxPolyDP fh eps = some fh :=
              ih (c.take (idx + 1)) (by omega) fh h1
            have hidem2 : approxPolyDP sh eps = some sh :=
              ih (c.drop idx) (by omega) sh hq2
            have hfhlen : 2 ≤ fh.length := hf1b (by omega)
            have hshlen : 2 ≤ sh.length := hf2b (by omega)
            have hfhne : fh ≠ [] := by
              intro h
              subst h
              simp at hfhlen
            have hshne : sh ≠ [] := by
              intro h
              subst h
              simp at hshlen
            have hdlne : fh.dropLast ≠ [] := by
              intro h
              have h5 := congrArg List.length h
              rw [List.length_dropLast] at h5
              simp at h5
              omega
            have hcne : c ≠ [] := by
              intro h
              subst h
              simp at h2
            have hdropne : c.drop idx ≠ [] := by
              intro h
              have h5 := congrArg List.length h
              rw [hlen2] at h5
              simp at h5
              omega
            have hm_eq : (c.take (idx + 1)).getD ((c.take (idx + 1)).length - 1) (0, 0) =
                c.getD idx (0, 0) := by
              rw [hlen1]
              simp only [Nat.add_sub_cancel]
              rw [List.getD_eq_getElem _ _ (by rw [hlen1]; omega),
                List.getD_eq_getElem _ _ (show idx < c.length by omega)]
              exact List.getElem_take c
            have hlastfh : fh.getLast? = some (c.getD idx (0, 0)) := by
              rw [hf1d, getLast?_eq_getD _ (by
                intro h
                rw [h] at hlen1
                simp at hlen1), hm_eq]
            have hfh_split : fh.dropLast ++ [c.getD idx (0, 0)] = fh := by
              have h6 := List.getLast?_eq_getLast fh hfhne
              rw [h6] at hlastfh
              rw [← Option.some.inj hlastfh]
              exact List.dropLast_append_getLast hfhne
            have hheadsh : sh.getD 0 (0, 0) = c.getD idx (0, 0) := by
              have h8 : sh.head? = some ((c.drop idx).getD 0 (0, 0)) := by
                rw [hf2c]
                exact head?_eq_getD _ hdropne
              rw [head?_eq_getD sh hshne] at h8
              have h10 : (c.drop idx).getD 0 (0, 0) = c.getD idx (0, 0) := by
                rw [List.getD_eq_getElem _ _ (by rw [hlen2]; omega)]
                exact (List.getElem_drop c (i := idx) (j := 0)
                    (h := by rw [hlen2]; omega)).trans
                  (List.getD_eq_getElem c (0, 0) (show idx < c.length by omega)).symm
              rw [Option.some.inj h8, h10]
            have hrlen : (fh.dropLast ++ sh).length = fh.length - 1 + sh.length := by
              rw [List.length_append, List.length_dropLast]
            have hrlong : ¬ (fh.dropLast ++ sh).length ≤ 2 := by
              rw [hrlen]
              omega
            have hrne : fh.dropLast ++ sh ≠ [] := by
              intro h
              have h5 := congrArg List.length h
              rw [hrlen] at h5
              simp at h5
              omega
            have hpos_eq : fh.dropLast.length = fh.length - 1 := List.length_dropLast fh
            have hrhead : (fh.dropLast ++ sh).getD 0 (0, 0) = c.getD 0 (0, 0) := by
              have ha := head?_eq_getD (fh.dropLast ++ sh) hrne
              rw [head?_append_left _ _ hdlne, dropLast_head? fh hfhlen, hf1c,
                take_head? c (idx + 1) (by omega), head?_eq_getD c hcne] at ha
              exact (Option.some.inj ha).symm
            have hrlast : (fh.dropLast ++ sh).getD ((fh.dropLast ++ sh).length - 1) (0, 0) =
                c.getD (c.length - 1) (0, 0) := by
              have ha := getLast?_eq_getD (fh.dropLast ++ sh) hrne
              rw [getLast?_append_right _ _ hshne, hf2d,
                drop_getLast? c idx (by omega), getLast?_eq_getD c hcne] at ha
              exact (Option.some.inj ha).symm
            have hcount2 : ∀ a : Pt, fh.dropLast.count a ≤ (c.take idx).count a := by
              intro a
              have hsplit : c.take (idx + 1) = c.take idx ++ [c.getD idx (0, 0)] :=
                take_succ_getD c idx (by omega)
              have hcnt1 : fh.dropLast.count a + [c.getD idx (0, 0)].count a ≤
                  (c.take idx).count a + [c.getD idx (0, 0)].count a := by
                rw [← List.count_append, hfh_split, ← List.count_append, ← hsplit]
                exact hf1e a
              exact Nat.le_of_add_le_add_right hcnt1
            have hrscan : findMaxScan (fh.dropLast ++ sh) (c.getD 0 (0, 0))
                (c.getD (c.length - 1) (0, 0)) = (maxA, fh.length - 1) := by
              unfold findMaxScan
              apply foldMax_first_max
              · exact List.pairwise_lt_range' 1 _
              · rw [List.mem_range'_1]
                refine ⟨by omega, ?_⟩
                rw [hrlen]
                omega
              · have hgd : (fh.dropLast ++ sh).getD (fh.length - 1) (0, 0) =
                    c.getD idx (0, 0) := by
                  rw [List.getD_append_right _ _ _ _ (le_of_eq hpos_eq), hpos_eq]
                  simp only [Nat.sub_self]
                  exact hheadsh
                rw [hgd]
                exact hattained.2.2.2
              · intro j hj
                rw [List.mem_range'_1] at hj
                have hjr : j < (fh.dropLast ++ sh).length := by
                  rw [hrlen] at hj ⊢
                  omega
                have hmem : (fh.dropLast ++ sh).getD j (0, 0) ∈ (fh.dropLast ++ sh) := by
                  rw [List.getD_eq_getElem _ _ hjr]
                  exact List.getElem_mem hjr
                have hmemc : (fh.dropLast ++ sh).getD j (0, 0) ∈ c := by
                  have hcnt := List.count_pos_iff.mpr hmem
                  exact List.count_pos_iff.mp
                    (lt_of_lt_of_le hcnt (hre ((fh.dropLast ++ sh).getD j (0, 0))))
                obtain ⟨jc, hjc, hjceq⟩ := List.mem_iff_getElem.mp hmemc
                have hjceq2 : c.getD jc (0, 0) = (fh.dropLast ++ sh).getD j (0, 0) := by
                  rw [List.getD_eq_getElem _ _ hjc]
                  exact hjceq
                rcases Nat.eq_zero_or_pos jc with h0 | hpos1
                · rw [← hjceq2, h0]
                  have : c.getD 0 (0, 0) = c.getD 0 (0, 0) := rfl
                  rw [show perpArea (c.getD 0 (0, 0)) (c.getD 0 (0, 0))
                    (c.getD (c.length - 1) (0, 0)) = 0 from perpArea_lineStart _ _]
                  omega
                · by_cases hlast1 : jc = c.length - 1
                  · rw [← hjceq2, hlast1]
                    rw [show perpArea (c.getD (c.length - 1) (0, 0)) (c.getD 0 (0, 0))
                      (c.getD (c.length - 1) (0, 0)) = 0 from perpArea_lineEnd _ _]
                    omega
                  · rw [← hjceq2]
                    exact hspec.2.1 jc (by omega) (by omega)
              · intro j hj hjlt
                rw [List.mem_range'_1] at hj
                have hjd : j < fh.dropLast.length := by
                  rw [hpos_eq]
                  omega
                have hgd : (fh.dropLast ++ sh).getD j (0, 0) = fh.dropLast.getD j (0, 0) :=
                  List.getD_append _ _ _ j hjd
                have hmem : fh.dropLast.getD j (0, 0) ∈ fh.dropLast := by
                  rw [List.getD_eq_getElem _ _ hjd]
                  exact List.getElem_mem hjd
                have hmemt : fh.dropLast.getD j (0, 0) ∈ c.take idx := by
                  have hcnt := List.count_pos_iff.mpr hmem
                  exact List.count_pos_iff.mp
                    (lt_of_lt_of_le hcnt (hcount2 (fh.dropLast.getD j (0, 0))))
                obtain ⟨jc, hjc, hjceq⟩ := List.mem_iff_getElem.mp hmemt
                have hjclt : jc < idx := by
                  rw [List.length_take] at hjc
                  omega
                have hjceq2 : c.getD jc (0, 0) = fh.dropLast.getD j (0, 0) := by
                  rw [List.getD_eq_getElem _ _ (show jc < c.length by omega)]
                  rw [← hjceq]
                  exact (List.getElem_take c).symm
                rw [hgd, ← hjceq2]
                rcases Nat.eq_zero_or_pos jc with h0 | hpos1
                · rw [h0]
                  rw [show perpArea (c.getD 0 (0, 0)) (c.getD 0 (0, 0))
                    (c.getD (c.length - 1) (0, 0)) = 0 from perpArea_lineStart _ _]
                  exact hattained.1
                · exact hspec.2.2 jc (by omega) hjclt
              · exact hattained.1
            rw [approxPolyDP_step _ eps hrlong, hrhead, hrlast, hrscan]
            rw [if_pos (show maxDistGt (maxA, fh.length - 1).1
              (lineLenSq (c.getD 0 (0, 0)) (c.getD (c.length - 1) (0, 0))) eps = true
              from htest)]
            rw [if_neg (show ¬ (maxA, fh.length - 1).2 = 0 by
              simp only []
              omega)]
            have htake : (fh.dropLast ++ sh).take ((maxA, fh.length - 1).2 + 1) = fh := by
              show (fh.dropLast ++ sh).take (fh.length - 1 + 1) = fh
              rw [List.take_append_eq_append_take,
                List.take_of_length_le (show fh.dropLast.length ≤ fh.length - 1 + 1 by
                  rw [hpos_eq]
                  omega),
                show fh.length - 1 + 1 - fh.dropLast.length = 1 by
                  rw [hpos_eq]
                  omega]
              obtain ⟨shh, sht, hsheq⟩ := List.exists_cons_of_ne_nil hshne
              have hshh : shh = c.getD idx (0, 0) := by
                rw [hsheq] at hheadsh
                exact hheadsh
              rw [hsheq]
              show fh.dropLast ++ [shh] = fh
              rw [hshh]
              exact hfh_split
            have hdrop : (fh.dropLast ++ sh).drop ((maxA, fh.length - 1).2) = sh := by
              show (fh.dropLast ++ sh).drop (fh.length - 1) = sh
              rw [← hpos_eq]
              exact List.drop_left _ _
            rw [htake, hdrop, hidem1, hidem2]

/-- C8: approxPolyDP (lines 534-566) is idempotent: for every point sequence c
and every epsilon, whenever approxPolyDP(c, epsilon) terminates with a result r,
applying approxPolyDP to r with the same epsilon returns r unchanged. -/
theorem spec_C8_idempotent (c : List Pt) (eps : ℚ) (r : List Pt)
    (h : approxPolyDP c eps = some r) : approxPolyDP r eps = some r :=
  approx_idem_aux eps c.length c (le_refl _) r h

/-- Concrete idempotence run: the 3-point polyline (0,0),(2,2),(4,0) at
epsilon 1 simplifies to itself, and re-simplifying returns it unchanged. -/
theorem spec_C8_witness :
    approxPolyDP [((0 : ℤ), (0 : ℤ)), (2, 2), (4, 0)] 1 =
      some [((0 : ℤ), (0 : ℤ)), (2, 2), (4, 0)] ∧
    approxPolyDP [((0 : ℤ), (0 : ℤ)), (2, 2), (4, 0)] 1 =
      some [((0 : ℤ), (0 : ℤ)), (2, 2), (4, 0)] :=
  ⟨by decide, spec_C8_idempotent [((0 : ℤ), (0 : ℤ)), (2, 2), (4, 0)] 1
    [((0 : ℤ), (0 : ℤ)), (2, 2), (4, 0)] (by decide)⟩
